import Mathlib

/-!
Verification of the chat ingestion and reconciliation core of the
Scrape_and_AI repository (src/scripts/chat_parser.py and
src/data/chat_database_manager.py).

The SQLite store is embedded shallowly: the two relevant tables become lists
of records, kept in insertion (rowid) order.  SQL datetime values written by
the code (datetime.now, the SQL function datetime with argument now, and the
scraped_at column default CURRENT_TIMESTAMP) all come from an ambient clock,
modelled as an explicit natural number argument called now; comparisons of
stored datetimes (ORDER BY last_activity DESC) become comparisons of these
naturals, which is faithful because ISO datetime strings compare
lexicographically in chronological order.  Conversational timestamps carried
by messages are opaque strings.  REAL values (phase_confidence) are never
computed with by the code under study and are modelled opaquely as strings.
Integer order positions written by the code are always positive counters, so
message_order is a natural number.

Python dictionaries for raw scraped messages may lack keys; a raw message is
therefore a record of optional fields, and a missing key is a KeyError,
modelled as Except.  A database transaction that raises before commit leaves
the store unchanged, so a function that can raise before its commit returns
Except and the caller keeps the previous store on error.

ChatParser calls ChatDatabase.get_connection, which is absent from the given
sources (only its callers appear).  Modelled from the spec: get_connection is
the store-handle accessor of spec section 9, yielding access to the shared
persisted store; in this embedding that is simply the DB state threaded
through every operation, so the call has no separate model.
-/

namespace Scrape

/-- One row of the chat_messages table (columns of chat_database_manager.py,
init_database; the integer surrogate primary key id is not modelled, rowid
order is the list order). -/
structure Message where
  session_id : String
  message_id : String
  sender : String
  sender_type : String
  message_text : String
  timestamp : String
  message_order : Nat
  scraped_at : Nat
deriving DecidableEq, Repr

/-- One row of the chat_sessions table.  Columns chat_platform, chat_title,
participant_name, phase, phase_confidence and phase_updated_at are nullable
in the schema and used as such by the queries under study. -/
structure Session where
  session_id : String
  chat_platform : Option String
  chat_title : Option String
  participant_name : Option String
  chat_url : String
  started_at : Nat
  last_activity : Nat
  total_messages : Nat
  status : String
  phase : Option String
  phase_confidence : Option String
  phase_updated_at : Option Nat
deriving DecidableEq, Repr

/-- The persisted store: the two tables the convergence core touches. -/
structure DB where
  sessions : List Session
  messages : List Message
deriving DecidableEq, Repr

/-- A raw scraped message dictionary as handed to the ingestion functions.
Each field is optional because a Python dict may lack the key; the embedding
raises (or skips, where the source catches) on a missing key exactly where
the source subscripts the dict. -/
structure RawMsg where
  sender : Option String := none
  sender_type : Option String := none
  text : Option String := none
  timestamp : Option String := none
  message_id : Option String := none
  msg_order : Option Nat := none
deriving DecidableEq, Repr

/-- Python dict subscripting: a missing key raises KeyError. -/
def field : Option α → Except String α
  | some a => .ok a
  | none => .error "KeyError"

/-- The f-string id pattern used for appended messages, both by
update_existing_session and by merge_chat_sessions. -/
def mkId (s : String) (n : Nat) : String := s ++ "_" ++ Nat.repr n

/-- The row the ingest INSERT writes: owning session, generated id, the
batch message's sender fields, text and conversational timestamp, the
assigned order position, and the ingestion clock for scraped_at. -/
def ingestRow (sid : String) (now : Nat) (sender st text ts : String) (o : Nat) : Message :=
  { session_id := sid, message_id := mkId sid o, sender := sender, sender_type := st,
    message_text := text, timestamp := ts, message_order := o, scraped_at := now }

/-- The session-row update every ingest commit performs: last_activity from
the clock and total_messages from the recomputed count. -/
def rollupRow (now c : Nat) (s : Session) : Session :=
  { s with last_activity := now, total_messages := c }

/-- Rows of chat_messages owned by a session (WHERE session_id match), in
rowid order. -/
def msgsOf (msgs : List Message) (sid : String) : List Message :=
  msgs.filter (fun m => m.session_id == sid)

/-- SELECT COALESCE(MAX(message_order), 0) for one session. -/
def maxOrder (msgs : List Message) (sid : String) : Nat :=
  ((msgsOf msgs sid).map (fun m => m.message_order)).foldr max 0

/-- SELECT COUNT(*) FROM chat_messages WHERE session_id match. -/
def countMsgs (msgs : List Message) (sid : String) : Nat :=
  (msgsOf msgs sid).length

/-- The dedup-key existence probe shared by update_existing_session and
merge_chat_sessions: SELECT id FROM chat_messages WHERE session_id, sender
and message_text all match, LIMIT 1. -/
def dedupExists (msgs : List Message) (sid sender text : String) : Bool :=
  msgs.any (fun m => m.session_id == sid && m.sender == sender && m.message_text == text)

/-- Existence of a message_id anywhere in the table; the schema declares
message_id UNIQUE, so a plain INSERT of an existing id raises (caught by the
per-message except in the source) and INSERT OR IGNORE drops the row. -/
def idExists (msgs : List Message) (mid : String) : Bool :=
  msgs.any (fun m => m.message_id == mid)

/-- Lookup of a session row by its UNIQUE session_id. -/
def getSession (db : DB) (sid : String) : Option Session :=
  db.sessions.find? (fun s => s.session_id == sid)

/-- Ordering used by both ORDER BY total_messages DESC, last_activity DESC
queries: a precedes b when a has strictly more messages, or equally many and
a later or equal last_activity.  Among full ties SQLite leaves the order
unspecified; the model keeps table order (a stable sort). -/
def keyGe (a b : Session) : Bool :=
  b.total_messages < a.total_messages
    || (a.total_messages == b.total_messages && b.last_activity ≤ a.last_activity)

/-- Stable insertion of a row into a list already sorted by ge. -/
def insertBy (ge : α → α → Bool) (a : α) : List α → List α
  | [] => [a]
  | b :: bs => if ge a b then a :: b :: bs else b :: insertBy ge a bs

/-- Stable sort placing ge-greater elements first; models an ORDER BY with
ties left in table order. -/
def sortBy (ge : α → α → Bool) : List α → List α
  | [] => []
  | a :: as => insertBy ge a (sortBy ge as)

/-- ChatParser.chat_session_exists: SELECT session_id FROM chat_sessions
WHERE chat_platform, chat_title and participant_name match exactly ORDER BY
total_messages DESC, last_activity DESC LIMIT 1.  A NULL column never equals
a bound string, and there is no filter on status.  Pure read. -/
def chat_session_exists (db : DB) (platform title participant : String) : Option String :=
  let matching := db.sessions.filter (fun s =>
    s.chat_platform == some platform && s.chat_title == some title
      && s.participant_name == some participant)
  ((sortBy keyGe matching).head?).map (fun s => s.session_id)

/-- The per-message loop of ChatParser.update_existing_session.  The dict
keys sender and text are read outside the per-message try block, so a
missing one raises out of the whole call (before the single commit at the
end, hence the caller keeps the old store); sender_type and timestamp are
read inside the try block, so a missing one only skips that message, after
max_order was already incremented.  A UNIQUE violation of the generated
message_id is likewise caught and skips the message. -/
def ingestLoop (sid : String) (now : Nat) :
    List RawMsg → List Message → Nat → Nat → Except String (List Message × Nat)
  | [], msgs, _, saved => .ok (msgs, saved)
  | m :: rest, msgs, max_order, saved =>
    match field m.sender with
    | .error e => .error e
    | .ok sender =>
      match field m.text with
      | .error e => .error e
      | .ok text =>
        if dedupExists msgs sid sender text then
          ingestLoop sid now rest msgs max_order saved
        else
          match m.sender_type, m.timestamp with
          | some st, some ts =>
            let mid := mkId sid (max_order + 1)
            if idExists msgs mid then
              ingestLoop sid now rest msgs (max_order + 1) saved
            else
              ingestLoop sid now rest
                (msgs ++ [ingestRow sid now sender st text ts (max_order + 1)])
                (max_order + 1) (saved + 1)
          | _, _ => ingestLoop sid now rest msgs (max_order + 1) saved

/-- ChatParser.update_existing_session: reads the current max order, adds
only messages whose (sender, text) dedup key is absent, then updates the
session row with last_activity now and total_messages recomputed by COUNT,
and commits.  Returns the number of newly saved messages. -/
def update_existing_session (db : DB) (session_id : String) (new_messages : List RawMsg)
    (now : Nat) : Except String (DB × Nat) :=
  match ingestLoop session_id now new_messages db.messages (maxOrder db.messages session_id) 0 with
  | .error e => .error e
  | .ok (msgs', saved) =>
    .ok ({ sessions := db.sessions.map (fun s =>
             if s.session_id == session_id then
               { s with last_activity := now, total_messages := countMsgs msgs' session_id }
             else s),
           messages := msgs' }, saved)

/-- The session_data dictionary built by callers of save_chat_session; the
source reads every field except session_id with dict.get and a default. -/
structure SessionData where
  session_id : String
  platform : Option String := none
  title : Option String := none
  participant : Option String := none
  url : Option String := none
  started_at : Option Nat := none
  total_messages : Option Nat := none
deriving DecidableEq, Repr

/-- ChatDatabase.save_chat_session: INSERT OR REPLACE of a full row listing
only the nine columns shown in the source, so the replacing row carries
status active, last_activity now, and NULL for phase, phase_confidence and
phase_updated_at; the conflicting old row (session_id is UNIQUE) is deleted. -/
def save_chat_session (db : DB) (session_data : SessionData) (now : Nat) : DB × String :=
  let row : Session :=
    { session_id := session_data.session_id,
      chat_platform := some (session_data.platform.getD "unknown"),
      chat_title := some (session_data.title.getD "Unknown Chat"),
      participant_name := some (session_data.participant.getD "Unknown"),
      chat_url := session_data.url.getD "",
      started_at := session_data.started_at.getD now,
      last_activity := now,
      total_messages := session_data.total_messages.getD 0,
      status := "active",
      phase := none, phase_confidence := none, phase_updated_at := none }
  ({ db with sessions := db.sessions.filter (fun s => !(s.session_id == session_data.session_id)) ++ [row] },
   session_data.session_id)

/-- The per-message loop of ChatDatabase.save_chat_messages: INSERT OR
IGNORE keyed on the UNIQUE message_id; every dict key is read inside the
per-message try block, so a missing key skips just that message. -/
def saveMsgsLoop (sid : String) (now : Nat) :
    List RawMsg → List Message → Nat → List Message × Nat
  | [], msgs, saved => (msgs, saved)
  | m :: rest, msgs, saved =>
    match m.message_id, m.sender, m.sender_type, m.text, m.timestamp, m.msg_order with
    | some mid, some sender, some st, some text, some ts, some ord =>
      if idExists msgs mid then saveMsgsLoop sid now rest msgs saved
      else
        saveMsgsLoop sid now rest
          (msgs ++ [{ session_id := sid, message_id := mid, sender := sender,
                      sender_type := st, message_text := text, timestamp := ts,
                      message_order := ord, scraped_at := now }])
          (saved + 1)
    | _, _, _, _, _, _ => saveMsgsLoop sid now rest msgs saved

/-- ChatDatabase.save_chat_messages. -/
def save_chat_messages (db : DB) (session_id : String) (messages : List RawMsg)
    (now : Nat) : DB × Nat :=
  let (msgs', saved) := saveMsgsLoop session_id now messages db.messages 0
  ({ db with messages := msgs' }, saved)

/-- Python str.title for ASCII text: a cased character is uppercased when
the previous character is not alphabetic and lowercased otherwise. -/
def pytitleGo : Bool → List Char → List Char
  | _, [] => []
  | prevAlpha, c :: cs =>
    (if c.isAlpha then (if prevAlpha then c.toLower else c.toUpper) else c)
      :: pytitleGo c.isAlpha cs

/-- Python str.title. -/
def pytitle (s : String) : String := String.mk (pytitleGo false s.data)

/-- ChatParser.save_to_database: builds the session id from the platform and
the current clock when none is given (the source formats the wall time; the
model renders the clock), saves the session row with total_messages set to
the raw batch length before any message row is written, stamps each raw
message with order index plus one, and saves the messages. -/
def save_to_database (db : DB) (messages : List RawMsg) (platform : String)
    (session_id : Option String) (now : Nat) : DB × String :=
  let sid := session_id.getD (platform ++ "_" ++ Nat.repr now)
  let session_data : SessionData :=
    { session_id := sid, platform := some platform,
      title := some (pytitle platform ++ " Chat Session"),
      participant := some "Unknown", url := some "",
      started_at := some now, total_messages := some messages.length }
  let (db1, _) := save_chat_session db session_data now
  let stamped := messages.enum.map (fun p => { p.2 with msg_order := some (p.1 + 1) })
  let (db2, _) := save_chat_messages db1 sid stamped now
  (db2, sid)

/-- ChatParser.extract_participant_name: over the first ten messages,
collect senders that are none of unknown, user, me, you and shorter than 50
characters into a set, and return one of them, else the fallback.  Python
set iteration order is unspecified; the model keeps first-encounter order,
and claims relying on this function use batches with at most one eligible
sender, where the choice is forced. -/
def extract_participant_name (messages : List RawMsg) : String :=
  let senders := (messages.take 10).foldl (fun acc m =>
    let sender := m.sender.getD "unknown"
    if !(["unknown", "user", "me", "you"].contains sender) && sender.length < 50
        && !(acc.contains sender) then
      acc ++ [sender]
    else acc) []
  match senders with
  | [] => "Unknown Participant"
  | s :: _ => s

/-- Outcome dictionary of ChatParser.process_incremental, reduced to the
fields the claims inspect. -/
inductive IncResult where
  | incremental_update (session_id : String) (new_messages_added : Nat)
  | new_session (session_id : String) (messages_saved : Nat)
  | failure
deriving DecidableEq, Repr

/-- ChatParser.process_incremental after HTML extraction (the parsed batch
and detected platform are its inputs; extraction itself is outside the
core).  Computes participant and title, resolves an existing session by the
exact triple, and either updates it or creates a new session through
save_to_database.  Any exception is caught and reported as failure with the
transaction uncommitted, so the caller keeps the previous store. -/
def process_incremental (db : DB) (messages : List RawMsg) (platform : String)
    (now : Nat) : DB × IncResult :=
  if messages.isEmpty then (db, .failure)
  else
    let participant := extract_participant_name messages
    let title := pytitle platform ++ " Chat with " ++ participant
    match chat_session_exists db platform title participant with
    | some sid =>
      match update_existing_session db sid messages now with
      | .ok (db', n) => (db', .incremental_update sid n)
      | .error _ => (db, .failure)
    | none =>
      let (db', sid) := save_to_database db messages platform none now
      (db', .new_session sid messages.length)

/-- Eligibility filter of the duplicate-session query: WHERE chat_platform
IS NOT NULL AND participant_name IS NOT NULL. -/
def eligible (s : Session) : Bool :=
  s.chat_platform.isSome && s.participant_name.isSome

/-- The GROUP BY key of find_duplicate_chat_sessions. -/
def fpOf (s : Session) : Option String × Option String × Option String :=
  (s.chat_platform, s.chat_title, s.participant_name)

/-- The distinct fingerprints of the eligible sessions, in first-appearance
order.  SQLite emits GROUP BY output in an implementation-determined order;
no observable behaviour of the claims depends on it because distinct groups
touch disjoint sessions, and the explicit ORDER BY COUNT(*) DESC is applied
afterwards. -/
def fingerprints (db : DB) : List (Option String × Option String × Option String) :=
  (db.sessions.filter eligible).foldl (fun acc s =>
    if acc.contains (fpOf s) then acc else acc ++ [fpOf s]) []

/-- The member rows of one fingerprint group, ordered as the GROUP_CONCAT
subclauses order them: total_messages DESC, last_activity DESC. -/
def groupRows (db : DB) (f : Option String × Option String × Option String) : List Session :=
  sortBy keyGe ((db.sessions.filter eligible).filter (fun s => fpOf s == f))

/-- One entry of the list returned by find_duplicate_chat_sessions.  The
source round-trips the ordered ids and counts through comma-joined
GROUP_CONCAT strings and splits them back; the round trip is exact because
no id generated by this system contains a comma, so the model keeps the
lists directly. -/
structure DupGroup where
  platform : String
  title : Option String
  participant : String
  duplicate_count : Nat
  session_ids : List String
  message_counts : List Nat
  keep_session : String
  remove_sessions : List String
deriving DecidableEq, Repr

/-- Builds the group dictionary from the ordered member rows: the first id
(most messages, then latest activity) is kept and the rest are removed. -/
def mkGroup (f : Option String × Option String × Option String)
    (rows : List Session) : DupGroup :=
  { platform := f.1.getD "", title := f.2.1, participant := f.2.2.getD "",
    duplicate_count := rows.length,
    session_ids := rows.map (fun s => s.session_id),
    message_counts := rows.map (fun s => s.total_messages),
    keep_session := ((rows.map (fun s => s.session_id)).head?).getD "",
    remove_sessions := (rows.map (fun s => s.session_id)).tail }

/-- Ordering of the duplicate groups: ORDER BY COUNT(*) DESC. -/
def countGe (a b : DupGroup) : Bool := b.duplicate_count ≤ a.duplicate_count

/-- ChatDatabase.find_duplicate_chat_sessions: group the sessions with
non-null platform and participant by the exact (platform, title,
participant) triple, keep the groups with more than one member, order them
by member count descending, and inside each group order the ids by
total_messages DESC, last_activity DESC, keeping the first. -/
def find_duplicate_chat_sessions (db : DB) : List DupGroup :=
  sortBy countGe
    (((fingerprints db).map (fun f => mkGroup f (groupRows db f))).filter
      (fun g => 1 < g.duplicate_count))

/-- Statistics dictionary returned by merge_chat_sessions. -/
structure MergeStats where
  messages_merged : Nat := 0
  duplicate_messages_skipped : Nat := 0
  sessions_removed : Nat := 0
  total_messages_before : Nat := 0
  total_messages_after : Nat := 0
deriving DecidableEq, Repr

/-- The row a merge INSERT writes for a moved message: owned by the keep
session, with a freshly generated id and order position, all other fields
(sender, sender role, text, conversational timestamp, scraped_at) copied
from the removed session's row. -/
def movedRow (keep : String) (o : Nat) (m : Message) : Message :=
  { m with session_id := keep, message_id := mkId keep o, message_order := o }

/-- The per-message loop of ChatDatabase.merge_chat_sessions: a message of a
removed session whose (sender, text) key already exists in the keep session
is counted as skipped; otherwise it is appended to the keep session with the
next order position, a new id derived from the keep session and that
position, and its original timestamp, sender fields and scraped_at.  max is
incremented before the insert, so an insert that fails on the UNIQUE
message_id (caught by the source) still consumes the position. -/
def mergeMsgLoop (keep : String) :
    List Message → List Message → Nat → MergeStats → List Message × Nat × MergeStats
  | [], msgs, max_order, stats => (msgs, max_order, stats)
  | m :: rest, msgs, max_order, stats =>
    if dedupExists msgs keep m.sender m.message_text then
      mergeMsgLoop keep rest msgs max_order
        { stats with duplicate_messages_skipped := stats.duplicate_messages_skipped + 1 }
    else
      let mid := mkId keep (max_order + 1)
      if idExists msgs mid then
        mergeMsgLoop keep rest msgs (max_order + 1) stats
      else
        mergeMsgLoop keep rest (msgs ++ [movedRow keep (max_order + 1) m]) (max_order + 1)
          { stats with messages_merged := stats.messages_merged + 1 }

/-- Handling of one removed session inside merge_chat_sessions: its messages
are read in message_order ASC, merged through the dedup rule, then all of
its message rows and its session row are deleted. -/
def mergeRemoveStep (keep : String)
    (acc : List Session × List Message × Nat × MergeStats) (removeId : String) :
    List Session × List Message × Nat × MergeStats :=
  let toMerge := sortBy (fun a b => a.message_order ≤ b.message_order)
    (msgsOf acc.2.1 removeId)
  let (msgs', max', stats') := mergeMsgLoop keep toMerge acc.2.1 acc.2.2.1 acc.2.2.2
  (acc.1.filter (fun s => !(s.session_id == removeId)),
   msgs'.filter (fun m => !(m.session_id == removeId)),
   max',
   { stats' with sessions_removed := stats'.sessions_removed + 1 })

/-- ChatDatabase.merge_chat_sessions: reads the keep session's current max
order and count, folds over the sessions to remove, then recomputes the keep
session's total_messages by COUNT and sets its last_activity to now, all in
one transaction. -/
def merge_chat_sessions (db : DB) (keep_session_id : String)
    (remove_session_ids : List String) (now : Nat) : DB × MergeStats :=
  let init : List Session × List Message × Nat × MergeStats :=
    (db.sessions, db.messages, maxOrder db.messages keep_session_id,
     { total_messages_before := countMsgs db.messages keep_session_id })
  let res := remove_session_ids.foldl (mergeRemoveStep keep_session_id) init
  let msgs := res.2.1
  let sessions := res.1.map (fun s =>
    if s.session_id == keep_session_id then
      rollupRow now (countMsgs msgs keep_session_id) s
    else s)
  (⟨sessions, msgs⟩,
   { res.2.2.2 with total_messages_after := countMsgs msgs keep_session_id })

/-- Statistics dictionary returned by cleanup_duplicate_chat_sessions.  The
zero-duplicates early return of the source omits the groups_processed key;
the model carries it as zero. -/
structure CleanupStats where
  duplicate_groups_found : Nat := 0
  sessions_removed : Nat := 0
  messages_merged : Nat := 0
  duplicate_messages_skipped : Nat := 0
  groups_processed : Nat := 0
  success : Bool := true
deriving DecidableEq, Repr

/-- The body of the cleanup loop over one duplicate group: merge the group
into its keep session and accumulate the statistics. -/
def cleanupGroupStep (now : Nat) (acc : DB × CleanupStats) (g : DupGroup) : DB × CleanupStats :=
  let r := merge_chat_sessions acc.1 g.keep_session g.remove_sessions now
  (r.1, { acc.2 with
          sessions_removed := acc.2.sessions_removed + r.2.sessions_removed,
          messages_merged := acc.2.messages_merged + r.2.messages_merged,
          duplicate_messages_skipped :=
            acc.2.duplicate_messages_skipped + r.2.duplicate_messages_skipped,
          groups_processed := acc.2.groups_processed + 1 })

/-- ChatDatabase.cleanup_duplicate_chat_sessions: finds the duplicate
groups; with none it returns all-zero counts and success without touching
the store; otherwise it merges every group into its keep session,
accumulating the statistics, and reports success. -/
def cleanup_duplicate_chat_sessions (db : DB) (now : Nat) : DB × CleanupStats :=
  let duplicate_groups := find_duplicate_chat_sessions db
  if duplicate_groups.isEmpty then
    (db, { duplicate_groups_found := 0, sessions_removed := 0, messages_merged := 0,
           duplicate_messages_skipped := 0, groups_processed := 0, success := true })
  else
    duplicate_groups.foldl (cleanupGroupStep now)
      (db, { duplicate_groups_found := duplicate_groups.length, success := true })

/-- ChatDatabase.update_session_phase: UPDATE of the three phase columns on
one session row; returns whether a row was affected. -/
def update_session_phase (db : DB) (session_id : String) (phase : String)
    (confidence : String) (now : Nat) : DB × Bool :=
  let found := db.sessions.any (fun s => s.session_id == session_id)
  ({ db with sessions := db.sessions.map (fun s =>
       if s.session_id == session_id then
         { s with phase := some phase, phase_confidence := some confidence,
                  phase_updated_at := some now }
       else s) }, found)

/-- One mutating operation of the convergence core, for stating invariants
over arbitrary operation sequences: an incremental ingest against a session
(update_existing_session, with the store kept unchanged when the call
raises, since its single commit is never reached), a session merge
(merge_chat_sessions), or a reconciliation pass
(cleanup_duplicate_chat_sessions). -/
inductive MMOp where
  | ingest (sid : String) (batch : List RawMsg) (now : Nat)
  | merge (keep : String) (removes : List String) (now : Nat)
  | reconcile (now : Nat)
deriving DecidableEq, Repr

/-- Application of one operation to the store. -/
def stepOp (db : DB) : MMOp → DB
  | .ingest sid batch now =>
    match update_existing_session db sid batch now with
    | .ok (db2, _) => db2
    | .error _ => db
  | .merge keep removes now => (merge_chat_sessions db keep removes now).1
  | .reconcile now => (cleanup_duplicate_chat_sessions db now).1

/-- Application of a sequence of operations. -/
def runOps (db : DB) : List MMOp → DB
  | [] => db
  | op :: ops => runOps (stepOp db op) ops

/-- The order-monotonicity invariant: within every session, the order
positions of its message rows, read in table (append) order, are strictly
increasing, hence pairwise distinct; gaps are allowed. -/
def OrderMono (db : DB) : Prop :=
  ∀ sid : String,
    (((msgsOf db.messages sid).map (fun m => m.message_order)).Pairwise (fun a b => a < b))

/-! Helper definitions used only in statements and proofs (not part of the
source embedding). -/

/-- Numeric value of a decimal digit character. -/
def chVal (c : Char) : Nat := c.toNat - 48

/-- Value of a most-significant-first decimal digit string. -/
def valChars (l : List Char) : Nat := l.foldl (fun a c => a * 10 + chVal c) 0

/-- A raw message dictionary carrying all four fields the ingest loop reads. -/
def rawComplete (m : RawMsg) : Bool :=
  m.sender.isSome && m.sender_type.isSome && m.text.isSome && m.timestamp.isSome

/-- Dedup keys of a batch: the (sender, text) pairs of its messages that
carry both fields. -/
def keysOfB (B : List RawMsg) : List (String × String) :=
  B.filterMap (fun m =>
    match m.sender, m.text with
    | some sender, some text => some (sender, text)
    | _, _ => none)

/-- Dedup keys of the messages a session owns, in row order. -/
def keysOfSession (msgs : List Message) (sid : String) : List (String × String) :=
  (msgsOf msgs sid).map (fun m => (m.sender, m.message_text))

/-- First occurrences of keys not already seen; the key trace of an ingest
run over a batch. -/
def firstOccAux (seen : List (String × String)) :
    List (String × String) → List (String × String)
  | [] => []
  | k :: ks =>
    if k ∈ seen then firstOccAux seen ks
    else k :: firstOccAux (seen ++ [k]) ks

/-- Specification-side mirror of the ingest loop under the conditions in
which no insert can fail: it returns just the list of rows the loop appends
for a complete batch.  The refinement theorem below proves the source loop
equal to appending this list. -/
def specIngestTail (sid : String) (now : Nat) :
    List RawMsg → List Message → Nat → List Message
  | [], _, _ => []
  | m :: rest, msgs, max_order =>
    match m.sender, m.sender_type, m.text, m.timestamp with
    | some sender, some st, some text, some ts =>
      if dedupExists msgs sid sender text then specIngestTail sid now rest msgs max_order
      else
        ingestRow sid now sender st text ts (max_order + 1)
          :: specIngestTail sid now rest
              (msgs ++ [ingestRow sid now sender st text ts (max_order + 1)]) (max_order + 1)
    | _, _, _, _ => specIngestTail sid now rest msgs max_order

/-- The store after a successful ingest that appended the given rows: the
message table grows by the rows and the session row gets last_activity now
and the recomputed count. -/
def ingestResultDB (db : DB) (sid : String) (now : Nat) (tail : List Message) : DB :=
  { sessions := db.sessions.map (fun s =>
      if s.session_id == sid then rollupRow now (countMsgs (db.messages ++ tail) sid) s else s),
    messages := db.messages ++ tail }

/-- Absence of stale colliding ids: no stored message carries an id of the
form sid_n for an order position n beyond the given bound.  Every store this
system builds satisfies it for every session, because generated ids of that
form always correspond to an order position the session has already used;
it is exactly what makes the UNIQUE message_id constraint unable to fire for
freshly generated ids. -/
def StaleIdFree (msgs : List Message) (sid : String) (bound : Nat) : Prop :=
  ∀ m ∈ msgs, ∀ n : Nat, bound < n → m.message_id ≠ mkId sid n

/-- Exact matching of a session row against a resolver fingerprint, the
propositional counterpart of the WHERE clause of chat_session_exists. -/
def FpMatch (s : Session) (p t pa : String) : Prop :=
  s.chat_platform = some p ∧ s.chat_title = some t ∧ s.participant_name = some pa

/-! Concrete instances used by witnesses, counterexamples and the concrete
scenario claims. -/

/-- A complete raw message as the HTML extraction layer produces it: the
message_id is the platform, the Python hash of the text and the extracted
timestamp joined by underscores, rendered here as a literal. -/
def rawMsg (sender text ts mid : String) : RawMsg :=
  { sender := some sender, sender_type := some "incoming", text := some text,
    timestamp := some ts, message_id := some mid, msg_order := some 0 }

/-- First scrape of the section 8 scenario: five messages of one Upwork
conversation with participant Alice. -/
def scrapeBatch1 : List RawMsg :=
  [rawMsg "Alice" "hi" "10:00" "upwork_h1_10:00",
   rawMsg "unknown" "hello" "10:01" "upwork_h2_10:01",
   rawMsg "Alice" "how are you" "10:02" "upwork_h3_10:02",
   rawMsg "unknown" "fine" "10:03" "upwork_h4_10:03",
   rawMsg "Alice" "ok" "10:04" "upwork_h5_10:04"]

/-- Second scrape ten minutes later: the same five messages plus two new
ones; re-extracting an unchanged message yields the same fields and hence
the same derived message_id. -/
def scrapeBatch2 : List RawMsg :=
  scrapeBatch1 ++
    [rawMsg "Alice" "new stuff" "10:11" "upwork_h6_10:11",
     rawMsg "unknown" "more" "10:12" "upwork_h7_10:12"]

/-- A batch whose two messages carry the same derived message_id, as the
extractor produces when two scraped rows share text and timestamp. -/
def collidingBatch : List RawMsg :=
  [rawMsg "Alice" "ok" "10:00" "upwork_h9_10:00",
   rawMsg "Bob" "ok" "10:00" "upwork_h9_10:00"]

/-- A plain active session row used by concrete instances. -/
def plainSession (sid : String) (tot last : Nat) : Session :=
  { session_id := sid, chat_platform := some "upwork", chat_title := some "T",
    participant_name := some "P", chat_url := "", started_at := 0,
    last_activity := last, total_messages := tot, status := "active",
    phase := none, phase_confidence := none, phase_updated_at := none }

/-- A batch whose second message lacks the timestamp key. -/
def malformedBatch : List RawMsg :=
  [rawMsg "Alice" "hi" "10:00" "upwork_h1_10:00",
   { sender := some "Bob", sender_type := some "incoming", text := some "yo",
     timestamp := none, message_id := some "upwork_h8_x", msg_order := some 0 }]

/-! Theorems.  First, facts about decimal rendering of naturals: the
generated message ids compare as strings, so injectivity of the id pattern
must be proved. -/

theorem digitChar_ne_underscore (n : Nat) : Nat.digitChar n ≠ '_' := by
  rcases Nat.lt_or_ge n 16 with h | h
  · interval_cases n <;> decide
  · unfold Nat.digitChar
    repeat rw [if_neg (by omega)]
    decide

theorem chVal_digitChar {r : Nat} (h : r < 10) : chVal (Nat.digitChar r) = r := by
  interval_cases r <;> decide

theorem toDigitsCore_ne_underscore (f : Nat) :
    ∀ (n : Nat) (ds : List Char), (∀ c ∈ ds, c ≠ '_') →
      ∀ c ∈ Nat.toDigitsCore 10 f n ds, c ≠ '_' := by
  induction f with
  | zero => intro n ds hds; simpa [Nat.toDigitsCore] using hds
  | succ f ih =>
    intro n ds hds
    simp only [Nat.toDigitsCore]
    split
    · intro c hc
      rcases List.mem_cons.mp hc with h | h
      · subst h; exact digitChar_ne_underscore _
      · exact hds c h
    · refine ih (n / 10) (Nat.digitChar (n % 10) :: ds) ?_
      intro c hc
      rcases List.mem_cons.mp hc with h | h
      · subst h; exact digitChar_ne_underscore _
      · exact hds c h

theorem repr_ne_underscore (n : Nat) : ∀ c ∈ (Nat.repr n).data, c ≠ '_' := by
  have h := toDigitsCore_ne_underscore (n + 1) n [] (by simp)
  simpa [Nat.repr, Nat.toDigits, List.asString] using h

theorem valChars_shift (l : List Char) :
    ∀ a : Nat, l.foldl (fun x c => x * 10 + chVal c) a = a * 10 ^ l.length + valChars l := by
  induction l with
  | nil => intro a; simp [valChars]
  | cons c cs ih =>
    intro a
    simp only [valChars, List.foldl, List.length_cons, Nat.zero_mul, Nat.zero_add]
    rw [ih (a * 10 + chVal c), ih (chVal c)]
    ring

theorem toDigitsCore_val (f : Nat) :
    ∀ (n : Nat), n < 10 ^ f → ∀ (ds : List Char),
      valChars (Nat.toDigitsCore 10 f n ds) = n * 10 ^ ds.length + valChars ds := by
  induction f with
  | zero =>
    intro n hn ds
    have : n = 0 := by simpa using hn
    subst this
    simp [Nat.toDigitsCore]
  | succ f ih =>
    intro n hn ds
    simp only [Nat.toDigitsCore]
    have hmod : n % 10 < 10 := Nat.mod_lt _ (by norm_num)
    have hch : chVal (Nat.digitChar (n % 10)) = n % 10 := chVal_digitChar hmod
    have hv : valChars (Nat.digitChar (n % 10) :: ds)
        = (n % 10) * 10 ^ ds.length + valChars ds := by
      simp only [valChars, List.foldl, Nat.zero_mul, Nat.zero_add]
      rw [valChars_shift ds (chVal (Nat.digitChar (n % 10))), hch]
      rfl
    split
    · rename_i hdiv
      have hn10 : n < 10 := by omega
      rw [hv, Nat.mod_eq_of_lt hn10]
    · rename_i hdiv
      have hlt : n / 10 < 10 ^ f := by
        have h1 : n < 10 * 10 ^ f := by
          rw [pow_succ, mul_comm] at hn
          exact hn
        exact Nat.div_lt_of_lt_mul h1
      rw [ih (n / 10) hlt (Nat.digitChar (n % 10) :: ds), hv]
      have hdm : 10 * (n / 10) + n % 10 = n := Nat.div_add_mod n 10
      conv_rhs => rw [← hdm]
      simp only [List.length_cons, pow_succ]
      ring

theorem valChars_repr (n : Nat) : valChars (Nat.repr n).data = n := by
  have hlt : n < 10 ^ (n + 1) := by
    calc n < 10 ^ n := Nat.lt_pow_self (by norm_num) n
    _ ≤ 10 ^ (n + 1) := Nat.pow_le_pow_right (by norm_num) (by omega)
  have h := toDigitsCore_val (n + 1) n hlt []
  simpa [Nat.repr, Nat.toDigits, List.asString, valChars] using h

theorem natRepr_inj {m n : Nat} (h : Nat.repr m = Nat.repr n) : m = n := by
  have hd : (Nat.repr m).data = (Nat.repr n).data := by rw [h]
  have h1 := valChars_repr m
  rw [hd, valChars_repr n] at h1
  exact h1.symm

theorem sep_append_inj {as bs as2 bs2 : List Char} {c : Char}
    (h : as ++ c :: bs = as2 ++ c :: bs2) (h1 : c ∉ as) (h2 : c ∉ as2) :
    as = as2 ∧ bs = bs2 := by
  induction as generalizing as2 with
  | nil =>
    cases as2 with
    | nil => simpa using h
    | cons a2 t2 =>
      exfalso
      simp only [List.nil_append, List.cons_append, List.cons.injEq] at h
      apply h2
      rw [h.1]
      exact List.mem_cons_self _ _
  | cons a t ih =>
    cases as2 with
    | nil =>
      exfalso
      simp only [List.cons_append, List.nil_append, List.cons.injEq] at h
      apply h1
      rw [h.1]
      exact List.mem_cons_self _ _
    | cons a2 t2 =>
      simp only [List.cons_append, List.cons.injEq] at h
      have ht := ih h.2 (fun hm => h1 (List.mem_cons_of_mem a hm))
        (fun hm => h2 (List.mem_cons_of_mem a2 hm))
      exact ⟨by rw [h.1, ht.1], ht.2⟩

theorem mkId_inj {s s2 : String} {m n : Nat} (h : mkId s m = mkId s2 n) :
    s = s2 ∧ m = n := by
  have hd : s.data ++ '_' :: (Nat.repr m).data = s2.data ++ '_' :: (Nat.repr n).data := by
    have := congrArg String.data h
    simpa [mkId, String.data_append] using this
  have hr : (Nat.repr m).data.reverse ++ '_' :: s.data.reverse
      = (Nat.repr n).data.reverse ++ '_' :: s2.data.reverse := by
    have := congrArg List.reverse hd
    simpa [List.reverse_append] using this
  have h1 : '_' ∉ (Nat.repr m).data.reverse := by
    intro hm
    exact repr_ne_underscore m '_' (List.mem_reverse.mp hm) rfl
  have h2 : '_' ∉ (Nat.repr n).data.reverse := by
    intro hm
    exact repr_ne_underscore n '_' (List.mem_reverse.mp hm) rfl
  obtain ⟨ha, hb⟩ := sep_append_inj hr h1 h2
  constructor
  · apply String.ext
    have := congrArg List.reverse hb
    simpa using this
  · apply natRepr_inj
    apply String.ext
    have := congrArg List.reverse ha
    simpa [List.asString] using this

/-! Facts about the stable sort modelling ORDER BY. -/

theorem insertBy_perm (ge : α → α → Bool) (a : α) (l : List α) :
    List.Perm (insertBy ge a l) (a :: l) := by
  induction l with
  | nil => simp [insertBy]
  | cons b bs ih =>
    simp only [insertBy]
    split
    · exact List.Perm.refl _
    · exact ((ih.cons b).trans (List.Perm.swap a b bs))

theorem sortBy_perm (ge : α → α → Bool) (l : List α) :
    List.Perm (sortBy ge l) l := by
  induction l with
  | nil => simp [sortBy]
  | cons a as ih => exact (insertBy_perm ge a (sortBy ge as)).trans (ih.cons a)

theorem mem_sortBy {ge : α → α → Bool} {l : List α} {x : α} :
    x ∈ sortBy ge l ↔ x ∈ l :=
  (sortBy_perm ge l).mem_iff

theorem insertBy_pairwise {ge : α → α → Bool}
    (htot : ∀ a b, ge a b = true ∨ ge b a = true)
    (htrans : ∀ a b c, ge a b = true → ge b c = true → ge a c = true)
    {l : List α} (hl : l.Pairwise (fun x y => ge x y = true)) (a : α) :
    (insertBy ge a l).Pairwise (fun x y => ge x y = true) := by
  induction l with
  | nil => simp [insertBy]
  | cons b bs ih =>
    simp only [insertBy]
    rcases List.pairwise_cons.mp hl with ⟨hb, hbs⟩
    split
    · rename_i hab
      refine List.pairwise_cons.mpr ⟨?_, hl⟩
      intro y hy
      rcases List.mem_cons.mp hy with h | h
      · subst h; exact hab
      · exact htrans a b y hab (hb y h)
    · rename_i hab
      have hba : ge b a = true := by
        rcases htot a b with h | h
        · exact absurd h hab
        · exact h
      refine List.pairwise_cons.mpr ⟨?_, ih hbs⟩
      intro y hy
      rcases List.mem_cons.mp ((insertBy_perm ge a bs).mem_iff.mp hy) with h | h
      · subst h; exact hba
      · exact hb y h

theorem sortBy_pairwise {ge : α → α → Bool}
    (htot : ∀ a b, ge a b = true ∨ ge b a = true)
    (htrans : ∀ a b c, ge a b = true → ge b c = true → ge a c = true)
    (l : List α) : (sortBy ge l).Pairwise (fun x y => ge x y = true) := by
  induction l with
  | nil => simp [sortBy]
  | cons a as ih => exact insertBy_pairwise htot htrans ih a

theorem sortBy_head_dominates {ge : α → α → Bool}
    (htot : ∀ a b, ge a b = true ∨ ge b a = true)
    (htrans : ∀ a b c, ge a b = true → ge b c = true → ge a c = true)
    {l : List α} {x : α} {xs : List α} (h : sortBy ge l = x :: xs) :
    ∀ y ∈ l, ge x y = true := by
  intro y hy
  have hmem : y ∈ x :: xs := h ▸ mem_sortBy.mpr hy
  rcases List.mem_cons.mp hmem with hxy | hxy
  · rw [hxy]
    rcases htot x x with h1 | h1 <;> exact h1
  · have hp := sortBy_pairwise htot htrans l
    rw [h] at hp
    exact (List.pairwise_cons.mp hp).1 y hxy

theorem keyGe_total : ∀ a b : Session, keyGe a b = true ∨ keyGe b a = true := by
  intro a b
  simp only [keyGe, Bool.or_eq_true, Bool.and_eq_true, decide_eq_true_eq, beq_iff_eq]
  omega

theorem keyGe_trans : ∀ a b c : Session,
    keyGe a b = true → keyGe b c = true → keyGe a c = true := by
  intro a b c
  simp only [keyGe, Bool.or_eq_true, Bool.and_eq_true, decide_eq_true_eq, beq_iff_eq]
  omega

/-- C7 (amended): the resolver searches all sessions whose (platform, title,
participant) triple matches the inputs exactly, regardless of lifecycle
status; it returns none exactly when no session matches, and otherwise the
id of a matching session that no other matching session beats on (message
count, last activity); it is a pure read by construction. -/
theorem c7_session_resolution (db : DB) (p t pa : String) :
    (chat_session_exists db p t pa = none ↔ ∀ s ∈ db.sessions, ¬ FpMatch s p t pa)
    ∧ (∀ sid, chat_session_exists db p t pa = some sid →
        ∃ s ∈ db.sessions, s.session_id = sid ∧ FpMatch s p t pa ∧
          ∀ s2 ∈ db.sessions, FpMatch s2 p t pa →
            s2.total_messages < s.total_messages
              ∨ (s2.total_messages = s.total_messages
                  ∧ s2.last_activity ≤ s.last_activity)) := by
  have hfilter : ∀ s : Session, (s.chat_platform == some p && s.chat_title == some t
      && s.participant_name == some pa) = true ↔ FpMatch s p t pa := by
    intro s
    simp [FpMatch, Bool.and_eq_true, beq_iff_eq, and_assoc]
  have hkey : chat_session_exists db p t pa
      = ((sortBy keyGe (db.sessions.filter (fun s => s.chat_platform == some p
          && s.chat_title == some t && s.participant_name == some pa))).head?).map
        (fun s => s.session_id) := rfl
  rcases hs : sortBy keyGe (db.sessions.filter (fun s => s.chat_platform == some p
      && s.chat_title == some t && s.participant_name == some pa)) with _ | ⟨x, xs⟩
  · have hnil : db.sessions.filter (fun s => s.chat_platform == some p
        && s.chat_title == some t && s.participant_name == some pa) = [] := by
      have hp1 := sortBy_perm keyGe (db.sessions.filter (fun s => s.chat_platform == some p
        && s.chat_title == some t && s.participant_name == some pa))
      rw [hs] at hp1
      exact hp1.symm.eq_nil
    have hnone : chat_session_exists db p t pa = none := by rw [hkey, hs]; rfl
    constructor
    · rw [hnone]
      simp only [true_iff]
      intro s hsmem hm
      have := List.filter_eq_nil_iff.mp hnil s hsmem
      exact this ((hfilter s).mpr hm)
    · intro sid hsid
      rw [hnone] at hsid
      exact absurd hsid (by simp)
  · have hsome : chat_session_exists db p t pa = some x.session_id := by
      rw [hkey, hs]; rfl
    have hx : x ∈ x :: xs := List.mem_cons_self _ _
    rw [← hs] at hx
    have hmem := List.mem_filter.mp (mem_sortBy.mp hx)
    constructor
    · rw [hsome]
      constructor
      · intro h; exact absurd h (by simp)
      · intro h
        exact absurd ((hfilter x).mp hmem.2) (h x hmem.1)
    · intro sid hsid
      rw [hsome] at hsid
      have hxid : x.session_id = sid := by simpa using hsid
      refine ⟨x, hmem.1, hxid, (hfilter x).mp hmem.2, ?_⟩
      intro s2 hs2 hm2
      have hdom := sortBy_head_dominates keyGe_total keyGe_trans hs s2
        (List.mem_filter.mpr ⟨hs2, (hfilter s2).mpr hm2⟩)
      simp only [keyGe, Bool.or_eq_true, Bool.and_eq_true, decide_eq_true_eq,
        beq_iff_eq] at hdom
      omega

/-- C7 witness: on a store with two matching sessions the resolver returns
the one with the larger message count. -/
theorem c7_session_resolution_witness :
    chat_session_exists ⟨[plainSession "low" 2 9, plainSession "high" 5 1], []⟩
      "upwork" "T" "P" = some "high" := by
  have h := (c7_session_resolution
    ⟨[plainSession "low" 2 9, plainSession "high" 5 1], []⟩ "upwork" "T" "P").1
  decide

/-- C7 counterexample to the claim as stated: the resolver does not restrict
the search to active sessions; on a store whose only matching session is
closed it still returns that session instead of none. -/
theorem c7_counterexample_closed_session_found :
    chat_session_exists ⟨[{ plainSession "z" 3 7 with status := "closed" }], []⟩
        "upwork" "T" "P" = some "z"
      ∧ ∀ s ∈ (⟨[{ plainSession "z" 3 7 with status := "closed" }], []⟩ : DB).sessions,
          s.status ≠ "active" := by
  decide

/-- C10: an insert-or-replace save of an existing session id replaces the
entire row: exactly one row with that id remains afterwards, carrying
status active, last_activity equal to the save clock, and null phase,
phase_confidence and phase_updated_at, even when a phase had just been
recorded on the old row. -/
theorem c10_save_session_replaces_whole_row (db : DB) (sd : SessionData)
    (phase conf : String) (t now : Nat) :
    ((save_chat_session ((update_session_phase db sd.session_id phase conf t).1) sd now).1.sessions.filter
        (fun s => s.session_id == sd.session_id))
      = [{ session_id := sd.session_id,
           chat_platform := some (sd.platform.getD "unknown"),
           chat_title := some (sd.title.getD "Unknown Chat"),
           participant_name := some (sd.participant.getD "Unknown"),
           chat_url := sd.url.getD "",
           started_at := sd.started_at.getD now,
           last_activity := now,
           total_messages := sd.total_messages.getD 0,
           status := "active",
           phase := none, phase_confidence := none, phase_updated_at := none }] := by
  simp only [save_chat_session, update_session_phase, List.filter_append,
    List.filter_filter]
  rw [List.filter_eq_nil_iff.mpr, List.nil_append]
  · simp
  · intro s hs
    simp

/-- C6 (failing input): creating a session from a batch of two messages
whose derived message keys collide (equal text and timestamp give an equal
derived id) stores total_messages 2 on the session row while only one
message row is inserted, because the row count is written from the raw batch
length before the ignore-on-duplicate insert drops the second row.  The
rollup therefore diverges from the owned-row count right after the creation
operation completes. -/
theorem c6_creation_rollup_mismatch :
    ((getSession (save_to_database ⟨[], []⟩ collidingBatch "upwork" none 50).1
        (save_to_database ⟨[], []⟩ collidingBatch "upwork" none 50).2).map
      (fun s => s.total_messages)) = some 2
    ∧ countMsgs (save_to_database ⟨[], []⟩ collidingBatch "upwork" none 50).1.messages
        (save_to_database ⟨[], []⟩ collidingBatch "upwork" none 50).2 = 1 := by
  constructor <;> rfl

/-- C8 (failing input): running the incremental processor on the first
scrape and then on the second scrape of the same conversation leaves two
session rows instead of one, because the resolver looks for the fingerprint
built from the extracted participant while the creation path stores the
fingerprint with title Chat Session and participant Unknown, so the second
scrape never finds the first session.  The second session also records
total_messages 7 while owning only the two new message rows, the five
re-scraped ones having been dropped by the globally unique derived ids. -/
theorem c8_two_scrapes_leave_two_sessions :
    ((process_incremental (process_incremental ⟨[], []⟩ scrapeBatch1 "upwork" 100).1
        scrapeBatch2 "upwork" 700).1.sessions.map
      (fun s => (s.session_id, s.total_messages))) = [("upwork_100", 5), ("upwork_700", 7)]
    ∧ countMsgs (process_incremental (process_incremental ⟨[], []⟩ scrapeBatch1 "upwork" 100).1
        scrapeBatch2 "upwork" 700).1.messages "upwork_700" = 2 := by
  constructor <;> rfl

/-- C9 counterexample: a batch whose second message lacks the timestamp key
is not rejected; the ingest call succeeds, inserts the first message and
updates the session row, so writes do occur for a malformed batch and no
validation happens before the transaction. -/
theorem c9_counterexample_malformed_batch_writes :
    ((update_existing_session ⟨[plainSession "s" 0 0], []⟩ "s" malformedBatch 5).toOption.map
      (fun r => (r.2, countMsgs r.1.messages "s",
        (getSession r.1 "s").map (fun s => (s.total_messages, s.last_activity)))))
      = some (1, 1, some (1, 5)) := by
  rfl

/-! Elementary facts about the query helpers. -/

theorem le_foldr_max {x : Nat} {l : List Nat} (h : x ∈ l) : x ≤ l.foldr max 0 := by
  induction l with
  | nil => cases h
  | cons a t ih =>
    rcases List.mem_cons.mp h with h1 | h1
    · rw [h1]; exact Nat.le_max_left _ _
    · exact le_trans (ih h1) (Nat.le_max_right _ _)

theorem foldr_max_append (l1 l2 : List Nat) :
    (l1 ++ l2).foldr max 0 = max (l1.foldr max 0) (l2.foldr max 0) := by
  induction l1 with
  | nil => simp
  | cons a t ih =>
    simp only [List.cons_append, List.foldr, List.append_eq]
    rw [ih]
    omega

theorem le_maxOrder {m : Message} {msgs : List Message} {sid : String}
    (h : m ∈ msgs) (hsid : m.session_id = sid) :
    m.message_order ≤ maxOrder msgs sid := by
  apply le_foldr_max
  exact List.mem_map_of_mem _ (List.mem_filter.mpr ⟨h, by simp [hsid]⟩)

theorem maxOrder_append (a b : List Message) (sid : String) :
    maxOrder (a ++ b) sid = max (maxOrder a sid) (maxOrder b sid) := by
  simp only [maxOrder, msgsOf, List.filter_append, List.map_append, foldr_max_append]

theorem msgsOf_append (a b : List Message) (sid : String) :
    msgsOf (a ++ b) sid = msgsOf a sid ++ msgsOf b sid := by
  simp [msgsOf, List.filter_append]

theorem dedupExists_append (a b : List Message) (sid sender text : String) :
    dedupExists (a ++ b) sid sender text
      = (dedupExists a sid sender text || dedupExists b sid sender text) := by
  simp [dedupExists, List.any_append]

theorem idExists_append (a b : List Message) (mid : String) :
    idExists (a ++ b) mid = (idExists a mid || idExists b mid) := by
  simp [idExists, List.any_append]

theorem dedupExists_iff_mem_keys {msgs : List Message} {sid sender text : String} :
    dedupExists msgs sid sender text = true ↔ (sender, text) ∈ keysOfSession msgs sid := by
  simp only [dedupExists, List.any_eq_true, Bool.and_eq_true, beq_iff_eq,
    keysOfSession, msgsOf, List.mem_map, List.mem_filter]
  constructor
  · rintro ⟨m, hm, ⟨h1, h2⟩, h3⟩
    exact ⟨m, ⟨hm, by simp [h1]⟩, by rw [h2, h3]⟩
  · rintro ⟨m, ⟨hm, h1⟩, h2⟩
    have h2a : m.sender = sender := congrArg Prod.fst h2
    have h2b : m.message_text = text := congrArg Prod.snd h2
    exact ⟨m, hm, ⟨by simpa using h1, h2a⟩, h2b⟩

theorem keysOfSession_append (a b : List Message) (sid : String) :
    keysOfSession (a ++ b) sid = keysOfSession a sid ++ keysOfSession b sid := by
  simp [keysOfSession, msgsOf_append]

/-! Pure characterization of the ingest loop through specIngestTail. -/

theorem specTail_rows (sid : String) (now : Nat) (B : List RawMsg) :
    ∀ (msgs : List Message) (maxo : Nat), ∀ m ∈ specIngestTail sid now B msgs maxo,
      m.session_id = sid ∧ m.message_id = mkId sid m.message_order ∧ m.scraped_at = now
        ∧ maxo < m.message_order
        ∧ ∃ raw ∈ B, raw.sender = some m.sender ∧ raw.sender_type = some m.sender_type
            ∧ raw.text = some m.message_text ∧ raw.timestamp = some m.timestamp := by
  induction B with
  | nil => intro msgs maxo m hm; simp [specIngestTail] at hm
  | cons b rest ih =>
    intro msgs maxo m hm
    rcases hs : b.sender with _ | sender <;>
      rcases hst : b.sender_type with _ | st <;>
        rcases htx : b.text with _ | text <;>
          rcases hts : b.timestamp with _ | ts <;>
            simp only [specIngestTail, hs, hst, htx, hts] at hm
    case some.some.some.some =>
      split at hm
      · obtain ⟨h1, h2, h3, h4, raw, hraw, hfields⟩ := ih msgs maxo m hm
        exact ⟨h1, h2, h3, h4, raw, List.mem_cons_of_mem b hraw, hfields⟩
      · rcases List.mem_cons.mp hm with h | h
        · refine ⟨by rw [h]; rfl, by rw [h]; rfl, by rw [h]; rfl,
            by rw [h]; exact Nat.lt_succ_self maxo, b, List.mem_cons_self _ _, ?_⟩
          rw [h]
          exact ⟨hs, hst, htx, hts⟩
        · obtain ⟨h1, h2, h3, h4, raw, hraw, hfields⟩ := ih _ (maxo + 1) m h
          exact ⟨h1, h2, h3, by omega, raw, List.mem_cons_of_mem b hraw, hfields⟩
    all_goals
      obtain ⟨h1, h2, h3, h4, raw, hraw, hfields⟩ := ih msgs maxo m hm
      exact ⟨h1, h2, h3, h4, raw, List.mem_cons_of_mem b hraw, hfields⟩

theorem specTail_orders (sid : String) (now : Nat) (B : List RawMsg) :
    ∀ (msgs : List Message) (maxo : Nat),
      (specIngestTail sid now B msgs maxo).map (fun m => m.message_order)
        = List.range' (maxo + 1) (specIngestTail sid now B msgs maxo).length := by
  induction B with
  | nil => intro msgs maxo; simp [specIngestTail]
  | cons b rest ih =>
    intro msgs maxo
    rcases hs : b.sender with _ | sender <;>
      rcases hst : b.sender_type with _ | st <;>
        rcases htx : b.text with _ | text <;>
          rcases hts : b.timestamp with _ | ts <;>
            simp only [specIngestTail, hs, hst, htx, hts]
    case some.some.some.some =>
      split
      · exact ih msgs maxo
      · simp only [List.map_cons, List.length_cons, List.range'_succ]
        rw [ih]
        rfl
    all_goals exact ih msgs maxo

theorem specTail_keys (sid : String) (now : Nat) (B : List RawMsg) :
    ∀ (msgs : List Message) (maxo : Nat) (sender text : String),
      (∀ m ∈ B, rawComplete m = true) →
      (dedupExists (msgs ++ specIngestTail sid now B msgs maxo) sid sender text = true
        ↔ dedupExists msgs sid sender text = true ∨ (sender, text) ∈ keysOfB B) := by
  induction B with
  | nil => intro msgs maxo sender text _; simp [specIngestTail, keysOfB]
  | cons b rest ih =>
    intro msgs maxo sender text hB
    have hrest : ∀ m ∈ rest, rawComplete m = true :=
      fun m hm => hB m (List.mem_cons_of_mem b hm)
    have hb := hB b (List.mem_cons_self _ _)
    simp only [rawComplete, Bool.and_eq_true, Option.isSome_iff_exists] at hb
    obtain ⟨⟨⟨⟨s0, hs⟩, st0, hst⟩, t0, htx⟩, ts0, hts⟩ := hb
    have hkeys : keysOfB (b :: rest) = (s0, t0) :: keysOfB rest := by
      simp [keysOfB, hs, htx]
    rw [hkeys]
    simp only [specIngestTail, hs, hst, htx, hts]
    split
    · rename_i hdup
      rw [ih msgs maxo sender text hrest]
      constructor
      · rintro (h | h)
        · exact Or.inl h
        · exact Or.inr (List.mem_cons_of_mem _ h)
      · rintro (h | h)
        · exact Or.inl h
        · rcases List.mem_cons.mp h with h1 | h1
          · left
            have hsend : sender = s0 := congrArg Prod.fst h1
            have htxt : text = t0 := congrArg Prod.snd h1
            rw [hsend, htxt]
            exact hdup
          · exact Or.inr h1
    · rename_i hdup
      have hassoc : msgs ++ (ingestRow sid now s0 st0 t0 ts0 (maxo + 1)
            :: specIngestTail sid now rest
              (msgs ++ [ingestRow sid now s0 st0 t0 ts0 (maxo + 1)]) (maxo + 1))
          = (msgs ++ [ingestRow sid now s0 st0 t0 ts0 (maxo + 1)])
              ++ specIngestTail sid now rest
                (msgs ++ [ingestRow sid now s0 st0 t0 ts0 (maxo + 1)]) (maxo + 1) := by
        rw [List.append_assoc, List.singleton_append]
      rw [hassoc, ih _ (maxo + 1) sender text hrest, dedupExists_append]
      simp only [Bool.or_eq_true]
      have hone : dedupExists [ingestRow sid now s0 st0 t0 ts0 (maxo + 1)] sid sender text
          = true ↔ (sender = s0 ∧ text = t0) := by
        simp only [dedupExists, ingestRow, List.any_cons, List.any_nil, Bool.or_false,
          Bool.and_eq_true, beq_iff_eq]
        constructor
        · rintro ⟨⟨-, h1⟩, h2⟩; exact ⟨h1.symm, h2.symm⟩
        · rintro ⟨h1, h2⟩; exact ⟨⟨trivial, h1.symm⟩, h2.symm⟩
      rw [hone]
      constructor
      · rintro ((h | h) | h)
        · exact Or.inl h
        · refine Or.inr ?_
          rcases h with ⟨h1, h2⟩
          rw [h1, h2]
          exact List.mem_cons_self _ _
        · exact Or.inr (List.mem_cons_of_mem _ h)
      · rintro (h | h)
        · exact Or.inl (Or.inl h)
        · rcases List.mem_cons.mp h with h1 | h1
          · exact Or.inl (Or.inr ⟨congrArg Prod.fst h1, congrArg Prod.snd h1⟩)
          · exact Or.inr h1

theorem specTail_key_trace (sid : String) (now : Nat) (B : List RawMsg) :
    ∀ (msgs : List Message) (maxo : Nat),
      (∀ m ∈ B, rawComplete m = true) →
      (specIngestTail sid now B msgs maxo).map (fun m => (m.sender, m.message_text))
        = firstOccAux (keysOfSession msgs sid) (keysOfB B) := by
  induction B with
  | nil => intro msgs maxo _; simp [specIngestTail, keysOfB, firstOccAux]
  | cons b rest ih =>
    intro msgs maxo hB
    have hrest : ∀ m ∈ rest, rawComplete m = true :=
      fun m hm => hB m (List.mem_cons_of_mem b hm)
    have hb := hB b (List.mem_cons_self _ _)
    simp only [rawComplete, Bool.and_eq_true, Option.isSome_iff_exists] at hb
    obtain ⟨⟨⟨⟨s0, hs⟩, st0, hst⟩, t0, htx⟩, ts0, hts⟩ := hb
    have hkeys : keysOfB (b :: rest) = (s0, t0) :: keysOfB rest := by
      simp [keysOfB, hs, htx]
    rw [hkeys]
    simp only [specIngestTail, hs, hst, htx, hts, firstOccAux]
    split
    · rename_i hdup
      rw [if_pos (dedupExists_iff_mem_keys.mp hdup)]
      exact ih msgs maxo hrest
    · rename_i hdup
      rw [if_neg (fun hmem => hdup (dedupExists_iff_mem_keys.mpr hmem))]
      simp only [List.map_cons]
      rw [ih _ (maxo + 1) hrest]
      have hseen : keysOfSession (msgs ++ [ingestRow sid now s0 st0 t0 ts0 (maxo + 1)]) sid
          = keysOfSession msgs sid ++ [(s0, t0)] := by
        rw [keysOfSession_append]
        simp [keysOfSession, msgsOf, ingestRow]
      rw [hseen]
      rfl

theorem specTail_nil_of_present (sid : String) (now : Nat) (B : List RawMsg) :
    ∀ (msgs : List Message) (maxo : Nat),
      (∀ m ∈ B, rawComplete m = true) →
      (∀ k ∈ keysOfB B, dedupExists msgs sid k.1 k.2 = true) →
      specIngestTail sid now B msgs maxo = [] := by
  induction B with
  | nil => intro msgs maxo _ _; simp [specIngestTail]
  | cons b rest ih =>
    intro msgs maxo hB hpres
    have hrest : ∀ m ∈ rest, rawComplete m = true :=
      fun m hm => hB m (List.mem_cons_of_mem b hm)
    have hb := hB b (List.mem_cons_self _ _)
    simp only [rawComplete, Bool.and_eq_true, Option.isSome_iff_exists] at hb
    obtain ⟨⟨⟨⟨s0, hs⟩, st0, hst⟩, t0, htx⟩, ts0, hts⟩ := hb
    have hkeys : keysOfB (b :: rest) = (s0, t0) :: keysOfB rest := by
      simp [keysOfB, hs, htx]
    simp only [specIngestTail, hs, hst, htx, hts]
    rw [if_pos]
    · exact ih msgs maxo hrest (fun k hk => hpres k (by rw [hkeys]; exact List.mem_cons_of_mem _ hk))
    · have := hpres (s0, t0) (by rw [hkeys]; exact List.mem_cons_self _ _)
      exact this

/-- Refinement of the source ingest loop by its pure mirror: on a complete
batch, with the order bound correct and no stale colliding ids, the loop
cannot fail and appends exactly the mirror rows. -/
theorem ingestLoop_refines (sid : String) (now : Nat) (B : List RawMsg) :
    ∀ (msgs : List Message) (maxo saved : Nat),
      (∀ m ∈ B, rawComplete m = true) →
      (∀ m ∈ msgs, m.session_id = sid → m.message_order ≤ maxo) →
      StaleIdFree msgs sid maxo →
      ingestLoop sid now B msgs maxo saved
        = .ok (msgs ++ specIngestTail sid now B msgs maxo,
               saved + (specIngestTail sid now B msgs maxo).length) := by
  induction B with
  | nil => intro msgs maxo saved _ _ _; simp [ingestLoop, specIngestTail]
  | cons b rest ih =>
    intro msgs maxo saved hB hmax hids
    have hrest : ∀ m ∈ rest, rawComplete m = true :=
      fun m hm => hB m (List.mem_cons_of_mem b hm)
    have hb := hB b (List.mem_cons_self _ _)
    simp only [rawComplete, Bool.and_eq_true, Option.isSome_iff_exists] at hb
    obtain ⟨⟨⟨⟨s0, hs⟩, st0, hst⟩, t0, htx⟩, ts0, hts⟩ := hb
    simp only [ingestLoop, specIngestTail, hs, hst, htx, hts, field]
    split
    · exact ih msgs maxo saved hrest hmax hids
    · rename_i hdup
      have hfree : idExists msgs (mkId sid (maxo + 1)) = false := by
        rw [Bool.eq_false_iff]
        intro hex
        simp only [idExists, List.any_eq_true, beq_iff_eq] at hex
        obtain ⟨m, hm, hid⟩ := hex
        exact hids m hm (maxo + 1) (Nat.lt_succ_self maxo) hid
      rw [hfree]
      simp only [Bool.false_eq_true, if_false]
      have hmax2 : ∀ m ∈ msgs ++ [ingestRow sid now s0 st0 t0 ts0 (maxo + 1)],
          m.session_id = sid → m.message_order ≤ maxo + 1 := by
        intro m hm hmsid
        rcases List.mem_append.mp hm with h | h
        · exact le_trans (hmax m h hmsid) (Nat.le_succ maxo)
        · rcases List.mem_cons.mp h with h1 | h1
          · rw [h1]; exact Nat.le_refl _
          · cases h1
      have hids2 : StaleIdFree (msgs ++ [ingestRow sid now s0 st0 t0 ts0 (maxo + 1)])
          sid (maxo + 1) := by
        intro m hm n hn
        rcases List.mem_append.mp hm with h | h
        · exact hids m h n (by omega)
        · rcases List.mem_cons.mp h with h1 | h1
          · rw [h1]
            intro heq
            obtain ⟨-, h2⟩ := mkId_inj heq
            omega
          · cases h1
      rw [ih (msgs ++ [ingestRow sid now s0 st0 t0 ts0 (maxo + 1)]) (maxo + 1) (saved + 1)
        hrest hmax2 hids2]
      simp only [Except.ok.injEq, Prod.mk.injEq, List.length_cons]
      constructor
      · simp
      · omega

/-- Characterization of update_existing_session under the same conditions:
it succeeds, appends the mirror rows to the message table, recomputes the
session total by count and touches last_activity, and reports the number of
appended rows. -/
theorem update_existing_session_ok (db : DB) (sid : String) (B : List RawMsg) (now : Nat)
    (hB : ∀ m ∈ B, rawComplete m = true)
    (hids : StaleIdFree db.messages sid (maxOrder db.messages sid)) :
    update_existing_session db sid B now
      = .ok (ingestResultDB db sid now
               (specIngestTail sid now B db.messages (maxOrder db.messages sid)),
             (specIngestTail sid now B db.messages (maxOrder db.messages sid)).length) := by
  unfold update_existing_session
  rw [ingestLoop_refines sid now B db.messages (maxOrder db.messages sid) 0 hB
    (fun m hm hsid => le_maxOrder hm hsid) hids]
  simp [ingestResultDB, rollupRow]

/-- The stale-id-free invariant survives an ingest: the appended rows all
use generated ids whose order component the new bound covers. -/
theorem staleIdFree_extend (msgs tail : List Message) (sid : String)
    (hold : StaleIdFree msgs sid (maxOrder msgs sid))
    (htail : ∀ m ∈ tail, m.session_id = sid ∧ m.message_id = mkId sid m.message_order) :
    StaleIdFree (msgs ++ tail) sid (maxOrder (msgs ++ tail) sid) := by
  intro m hm n hn
  rcases List.mem_append.mp hm with h | h
  · apply hold m h
    have hmono : maxOrder msgs sid ≤ maxOrder (msgs ++ tail) sid := by
      rw [maxOrder_append]
      omega
    omega
  · obtain ⟨hsid, hid⟩ := htail m h
    rw [hid]
    intro heq
    obtain ⟨-, h2⟩ := mkId_inj heq
    have hle := @le_maxOrder m (msgs ++ tail) sid (List.mem_append.mpr (Or.inr h)) hsid
    omega

theorem find?_mapUpdate (l : List Session) (sid : String) (g : Session → Session)
    (hg : ∀ s, (g s).session_id = s.session_id) :
    List.find? (fun s => s.session_id == sid)
        (l.map (fun s => if s.session_id == sid then g s else s))
      = (List.find? (fun s => s.session_id == sid) l).map
          (fun s => if s.session_id == sid then g s else s) := by
  induction l with
  | nil => simp
  | cons a t ih =>
    simp only [List.map_cons]
    by_cases h : (a.session_id == sid) = true
    · have h2 : ((g a).session_id == sid) = true := by rw [hg a]; exact h
      rw [if_pos h,
        @List.find?_cons_of_pos Session (fun s => s.session_id == sid) (g a)
          (List.map (fun s => if (s.session_id == sid) = true then g s else s) t) h2,
        @List.find?_cons_of_pos Session (fun s => s.session_id == sid) a t h]
      have heq : a.session_id = sid := by simpa using h
      simp [heq]
    · rw [if_neg h,
        @List.find?_cons_of_neg Session (fun s => s.session_id == sid) a
          (List.map (fun s => if (s.session_id == sid) = true then g s else s) t) h,
        @List.find?_cons_of_neg Session (fun s => s.session_id == sid) a t h]
      exact ih

theorem getSession_ingestResult (db : DB) (sid : String) (now : Nat) (tail : List Message) :
    getSession (ingestResultDB db sid now tail) sid
      = (getSession db sid).map (rollupRow now (countMsgs (db.messages ++ tail) sid)) := by
  unfold getSession ingestResultDB
  rw [find?_mapUpdate db.sessions sid
    (rollupRow now (countMsgs (db.messages ++ tail) sid)) (fun s => rfl)]
  rcases h : List.find? (fun s => s.session_id == sid) db.sessions with _ | s
  · rw [h]; rfl
  · rw [h]
    have hsid : (s.session_id == sid) = true :=
      @List.find?_some Session (fun x => x.session_id == sid) s db.sessions h
    simp [hsid]
    intro hne
    exact absurd (by simpa using hsid) hne

theorem dedupExists_false_of_no_rows {msgs : List Message} {sid : String}
    (h : msgsOf msgs sid = []) (sender text : String) :
    dedupExists msgs sid sender text = false := by
  rw [Bool.eq_false_iff]
  intro hex
  simp only [dedupExists, List.any_eq_true, Bool.and_eq_true, beq_iff_eq] at hex
  obtain ⟨m, hm, ⟨h1, -⟩, -⟩ := hex
  have : m ∈ msgsOf msgs sid := List.mem_filter.mpr ⟨hm, by simp [h1]⟩
  rw [h] at this
  cases this

theorem mem_keysOfB {B : List RawMsg} {k : String × String} :
    k ∈ keysOfB B ↔ ∃ m ∈ B, m.sender = some k.1 ∧ m.text = some k.2 := by
  simp only [keysOfB, List.mem_filterMap]
  constructor
  · rintro ⟨m, hm, hf⟩
    rcases hs : m.sender with _ | s0 <;> rcases ht : m.text with _ | t0 <;>
      rw [hs, ht] at hf <;> simp at hf
    exact ⟨m, hm, by rw [hs, ← hf], by rw [ht, ← hf]⟩
  · rintro ⟨m, hm, h1, h2⟩
    exact ⟨m, hm, by rw [h1, h2]⟩

/-- C1: with a complete batch and no stale colliding ids, the first ingest
succeeds and the second ingest of the very same batch is a no-op: it reports
zero saved messages, leaves the message table unchanged, keeps the stored
total and the set of dedup keys of the session identical, and indeed every
message of the batch carries a dedup key already present after the first
call. -/
theorem c1_idempotent_ingest (db : DB) (sid : String) (B : List RawMsg) (now1 now2 : Nat)
    (hB : ∀ m ∈ B, rawComplete m = true)
    (hids : StaleIdFree db.messages sid (maxOrder db.messages sid)) :
    ∃ db1 k1 db2, update_existing_session db sid B now1 = .ok (db1, k1)
      ∧ update_existing_session db1 sid B now2 = .ok (db2, 0)
      ∧ db2.messages = db1.messages
      ∧ (getSession db2 sid).map (fun s => s.total_messages)
          = (getSession db1 sid).map (fun s => s.total_messages)
      ∧ (∀ sender text, dedupExists db2.messages sid sender text
          = dedupExists db1.messages sid sender text)
      ∧ (∀ m ∈ B, ∀ sender text, m.sender = some sender → m.text = some text →
          dedupExists db1.messages sid sender text = true) := by
  have h1 := update_existing_session_ok db sid B now1 hB hids
  set tail1 := specIngestTail sid now1 B db.messages (maxOrder db.messages sid) with htail1
  set db1 := ingestResultDB db sid now1 tail1 with hdb1
  have hmsgs1 : db1.messages = db.messages ++ tail1 := rfl
  have hpres : ∀ k ∈ keysOfB B, dedupExists db1.messages sid k.1 k.2 = true := by
    intro k hk
    rw [hmsgs1]
    exact (specTail_keys sid now1 B db.messages (maxOrder db.messages sid) k.1 k.2 hB).mpr
      (Or.inr hk)
  have hids1 : StaleIdFree db1.messages sid (maxOrder db1.messages sid) := by
    rw [hmsgs1]
    apply staleIdFree_extend db.messages tail1 sid hids
    intro m hm
    have := specTail_rows sid now1 B db.messages (maxOrder db.messages sid) m hm
    exact ⟨this.1, this.2.1⟩
  have h2 := update_existing_session_ok db1 sid B now2 hB hids1
  have htail2 : specIngestTail sid now2 B db1.messages (maxOrder db1.messages sid) = [] := by
    apply specTail_nil_of_present sid now2 B db1.messages (maxOrder db1.messages sid) hB hpres
  rw [htail2] at h2
  refine ⟨db1, tail1.length, ingestResultDB db1 sid now2 [], h1, by simpa using h2, ?_, ?_, ?_, ?_⟩
  · show db1.messages ++ [] = db1.messages
    simp
  · rw [getSession_ingestResult db1 sid now2 [], hdb1, getSession_ingestResult db sid now1 tail1]
    rcases hfound : getSession db sid with _ | s
    · rfl
    · simp only [Option.map_some, Option.map_map]
      show some (countMsgs ((db.messages ++ tail1) ++ []) sid) = some (countMsgs (db.messages ++ tail1) sid)
      simp
  · intro sender text
    show dedupExists (db1.messages ++ []) sid sender text = dedupExists db1.messages sid sender text
    simp
  · intro m hm sender text hsender htext
    exact hpres (sender, text) (mem_keysOfB.mpr ⟨m, hm, hsender, htext⟩)

/-- C1 witness at a concrete store and batch. -/
theorem c1_idempotent_ingest_witness :
    ∃ db1 k1 db2,
      update_existing_session ⟨[plainSession "s" 0 0], []⟩ "s"
          [rawMsg "Alice" "hi" "10:00" "x1", rawMsg "Bob" "yo" "10:01" "x2"] 5 = .ok (db1, k1)
      ∧ update_existing_session db1 "s"
          [rawMsg "Alice" "hi" "10:00" "x1", rawMsg "Bob" "yo" "10:01" "x2"] 6 = .ok (db2, 0)
      ∧ db2.messages = db1.messages
      ∧ (getSession db2 "s").map (fun s => s.total_messages)
          = (getSession db1 "s").map (fun s => s.total_messages)
      ∧ (∀ sender text, dedupExists db2.messages "s" sender text
          = dedupExists db1.messages "s" sender text)
      ∧ (∀ m ∈ [rawMsg "Alice" "hi" "10:00" "x1", rawMsg "Bob" "yo" "10:01" "x2"],
          ∀ sender text, m.sender = some sender → m.text = some text →
          dedupExists db1.messages "s" sender text = true) :=
  c1_idempotent_ingest ⟨[plainSession "s" 0 0], []⟩ "s"
    [rawMsg "Alice" "hi" "10:00" "x1", rawMsg "Bob" "yo" "10:01" "x2"] 5 6
    (by decide) (by intro m hm n hn; simp at hm)

/-- C2: union semantics of two overlapping complete batches ingested into a
session that starts with no messages.  Both calls succeed; afterwards the
session's dedup keys are exactly the union of the two batches' keys; every
row present after the first call survives the second call unchanged (so an
overlapping message keeps the order position of its first ingestion); and
the rows the second call appends are exactly the first occurrences of the
genuinely new keys of the second batch, in batch order, with order positions
counting up from the session's previous maximum plus one. -/
theorem c2_union_semantics (db : DB) (sid : String) (B1 B2 : List RawMsg) (now1 now2 : Nat)
    (hB1 : ∀ m ∈ B1, rawComplete m = true) (hB2 : ∀ m ∈ B2, rawComplete m = true)
    (h0 : msgsOf db.messages sid = [])
    (hids : StaleIdFree db.messages sid (maxOrder db.messages sid)) :
    ∃ db1 k1 db2 k2, update_existing_session db sid B1 now1 = .ok (db1, k1)
      ∧ update_existing_session db1 sid B2 now2 = .ok (db2, k2)
      ∧ (∀ sender text, dedupExists db2.messages sid sender text = true
          ↔ (sender, text) ∈ keysOfB B1 ∨ (sender, text) ∈ keysOfB B2)
      ∧ ∃ tail, msgsOf db2.messages sid = msgsOf db1.messages sid ++ tail
          ∧ tail.map (fun m => (m.sender, m.message_text))
              = firstOccAux (keysOfSession db1.messages sid) (keysOfB B2)
          ∧ tail.map (fun m => m.message_order)
              = List.range' (maxOrder db1.messages sid + 1) tail.length := by
  have h1 := update_existing_session_ok db sid B1 now1 hB1 hids
  set tail1 := specIngestTail sid now1 B1 db.messages (maxOrder db.messages sid) with htail1
  set db1 := ingestResultDB db sid now1 tail1 with hdb1
  have hmsgs1 : db1.messages = db.messages ++ tail1 := rfl
  have hids1 : StaleIdFree db1.messages sid (maxOrder db1.messages sid) := by
    rw [hmsgs1]
    apply staleIdFree_extend db.messages tail1 sid hids
    intro m hm
    have := specTail_rows sid now1 B1 db.messages (maxOrder db.messages sid) m hm
    exact ⟨this.1, this.2.1⟩
  have h2 := update_existing_session_ok db1 sid B2 now2 hB2 hids1
  set tail2 := specIngestTail sid now2 B2 db1.messages (maxOrder db1.messages sid) with htail2
  set db2 := ingestResultDB db1 sid now2 tail2 with hdb2
  have hmsgs2 : db2.messages = db1.messages ++ tail2 := rfl
  have htail2sid : ∀ m ∈ tail2, m.session_id = sid := by
    intro m hm
    exact (specTail_rows sid now2 B2 db1.messages (maxOrder db1.messages sid) m hm).1
  refine ⟨db1, tail1.length, db2, tail2.length, h1, h2, ?_, tail2, ?_, ?_, ?_⟩
  · intro sender text
    rw [hmsgs2, htail2,
      specTail_keys sid now2 B2 db1.messages (maxOrder db1.messages sid) sender text hB2,
      hmsgs1, htail1,
      specTail_keys sid now1 B1 db.messages (maxOrder db.messages sid) sender text hB1,
      dedupExists_false_of_no_rows h0 sender text]
    simp
  · rw [hmsgs2, msgsOf_append]
    have : msgsOf tail2 sid = tail2 :=
      List.filter_eq_self.mpr (fun m hm => by simp [htail2sid m hm])
    rw [this]
  · rw [htail2, specTail_key_trace sid now2 B2 db1.messages (maxOrder db1.messages sid) hB2]
  · rw [htail2, specTail_orders sid now2 B2 db1.messages (maxOrder db1.messages sid)]

/-- C2 witness: batches with one overlapping message on a fresh session. -/
theorem c2_union_semantics_witness :
    ∃ db1 k1 db2 k2,
      update_existing_session ⟨[plainSession "s" 0 0], []⟩ "s"
          [rawMsg "Alice" "m1" "10:00" "x1", rawMsg "Bob" "m2" "10:01" "x2"] 5 = .ok (db1, k1)
      ∧ update_existing_session db1 "s"
          [rawMsg "Bob" "m2" "10:01" "x2", rawMsg "Alice" "m3" "10:02" "x3"] 6 = .ok (db2, k2)
      ∧ (∀ sender text, dedupExists db2.messages "s" sender text = true
          ↔ (sender, text) ∈ keysOfB [rawMsg "Alice" "m1" "10:00" "x1",
                rawMsg "Bob" "m2" "10:01" "x2"]
            ∨ (sender, text) ∈ keysOfB [rawMsg "Bob" "m2" "10:01" "x2",
                rawMsg "Alice" "m3" "10:02" "x3"])
      ∧ ∃ tail, msgsOf db2.messages "s" = msgsOf db1.messages "s" ++ tail
          ∧ tail.map (fun m => (m.sender, m.message_text))
              = firstOccAux (keysOfSession db1.messages "s")
                  (keysOfB [rawMsg "Bob" "m2" "10:01" "x2", rawMsg "Alice" "m3" "10:02" "x3"])
          ∧ tail.map (fun m => m.message_order)
              = List.range' (maxOrder db1.messages "s" + 1) tail.length :=
  c2_union_semantics ⟨[plainSession "s" 0 0], []⟩ "s"
    [rawMsg "Alice" "m1" "10:00" "x1", rawMsg "Bob" "m2" "10:01" "x2"]
    [rawMsg "Bob" "m2" "10:01" "x2", rawMsg "Alice" "m3" "10:02" "x3"] 5 6
    (by decide) (by decide) (by decide) (by intro m hm n hn; simp at hm)

theorem ingestLoop_error_of_missing (sid : String) (now : Nat) (B : List RawMsg) :
    ∀ (msgs : List Message) (maxo saved : Nat),
      (∃ m ∈ B, m.sender = none ∨ m.text = none) →
      ∃ e, ingestLoop sid now B msgs maxo saved = .error e := by
  induction B with
  | nil => intro msgs maxo saved hwit; simp at hwit
  | cons b rest ih =>
    intro msgs maxo saved hwit
    rcases hbs : b.sender with _ | s0
    · exact ⟨"KeyError", by simp [ingestLoop, hbs, field]⟩
    · rcases hbt : b.text with _ | t0
      · exact ⟨"KeyError", by simp [ingestLoop, hbs, hbt, field]⟩
      · have hrest : ∃ m ∈ rest, m.sender = none ∨ m.text = none := by
          rcases hwit with ⟨m, hm, hor⟩
          rcases List.mem_cons.mp hm with h | h
          · exfalso
            rcases hor with h1 | h1
            · rw [h, hbs] at h1; cases h1
            · rw [h, hbt] at h1; cases h1
          · exact ⟨m, h, hor⟩
        simp only [ingestLoop, hbs, hbt, field]
        split
        · exact ih msgs maxo saved hrest
        · rcases hst : b.sender_type with _ | st <;> rcases hts : b.timestamp with _ | ts <;>
            simp only [hst, hts]
          · exact ih msgs (maxo + 1) saved hrest
          · exact ih msgs (maxo + 1) saved hrest
          · exact ih msgs (maxo + 1) saved hrest
          · split
            · exact ih msgs (maxo + 1) saved hrest
            · exact ih _ (maxo + 1) (saved + 1) hrest

theorem ingestLoop_provenance (sid : String) (now : Nat) (B : List RawMsg) :
    ∀ (msgs : List Message) (maxo saved : Nat) (msgs2 : List Message) (k : Nat),
      ingestLoop sid now B msgs maxo saved = .ok (msgs2, k) →
      ∀ m ∈ msgs2, m ∈ msgs
        ∨ ∃ raw ∈ B, raw.sender = some m.sender ∧ raw.sender_type = some m.sender_type
            ∧ raw.text = some m.message_text ∧ raw.timestamp = some m.timestamp := by
  induction B with
  | nil =>
    intro msgs maxo saved msgs2 k hok m hm
    simp only [ingestLoop, Except.ok.injEq, Prod.mk.injEq] at hok
    refine Or.inl ?_
    rw [hok.1]
    exact hm
  | cons b rest ih =>
    intro msgs maxo saved msgs2 k hok m hm
    rcases hbs : b.sender with _ | s0 <;> rw [ingestLoop, hbs] at hok
    · simp [field] at hok
    · rcases hbt : b.text with _ | t0 <;> rw [hbt] at hok
      · simp [field] at hok
      · simp only [field] at hok
        split at hok
        · rcases ih msgs maxo saved msgs2 k hok m hm with h | ⟨raw, hraw, hf⟩
          · exact Or.inl h
          · exact Or.inr ⟨raw, List.mem_cons_of_mem b hraw, hf⟩
        · split at hok
          · rename_i st ts hst2 hts2
            split at hok
            · rcases ih msgs (maxo + 1) saved msgs2 k hok m hm with h | ⟨raw, hraw, hf⟩
              · exact Or.inl h
              · exact Or.inr ⟨raw, List.mem_cons_of_mem b hraw, hf⟩
            · rcases ih (msgs ++ [ingestRow sid now s0 st t0 ts (maxo + 1)]) (maxo + 1)
                  (saved + 1) msgs2 k hok m hm with h | ⟨raw, hraw, hf⟩
              · rcases List.mem_append.mp h with h1 | h1
                · exact Or.inl h1
                · rcases List.mem_cons.mp h1 with h2 | h2
                  · refine Or.inr ⟨b, List.mem_cons_self _ _, ?_⟩
                    rw [h2]
                    exact ⟨hbs, hst2, hbt, hts2⟩
                  · cases h2
              · exact Or.inr ⟨raw, List.mem_cons_of_mem b hraw, hf⟩
          · rcases ih msgs (maxo + 1) saved msgs2 k hok m hm with h | ⟨raw, hraw, hf⟩
            · exact Or.inl h
            · exact Or.inr ⟨raw, List.mem_cons_of_mem b hraw, hf⟩

theorem saveMsgsLoop_provenance (sid : String) (now : Nat) (B : List RawMsg) :
    ∀ (msgs : List Message) (saved : Nat),
      ∀ m ∈ (saveMsgsLoop sid now B msgs saved).1, m ∈ msgs
        ∨ ∃ raw ∈ B, raw.message_id = some m.message_id ∧ raw.sender = some m.sender
            ∧ raw.sender_type = some m.sender_type ∧ raw.text = some m.message_text
            ∧ raw.timestamp = some m.timestamp ∧ raw.msg_order = some m.message_order := by
  induction B with
  | nil => intro msgs saved m hm; exact Or.inl hm
  | cons b rest ih =>
    intro msgs saved m hm
    rw [saveMsgsLoop] at hm
    split at hm
    · rename_i mid s0 st t0 ts o e1 e2 e3 e4 e5 e6
      split at hm
      · rcases ih msgs saved m hm with h | ⟨raw, hraw, hf⟩
        · exact Or.inl h
        · exact Or.inr ⟨raw, List.mem_cons_of_mem b hraw, hf⟩
      · rcases ih _ (saved + 1) m hm with h | ⟨raw, hraw, hf⟩
        · rcases List.mem_append.mp h with h1 | h1
          · exact Or.inl h1
          · rcases List.mem_cons.mp h1 with h2 | h2
            · refine Or.inr ⟨b, List.mem_cons_self _ _, ?_⟩
              rw [h2]
              exact ⟨e1, e2, e3, e4, e5, e6⟩
            · cases h2
        · exact Or.inr ⟨raw, List.mem_cons_of_mem b hraw, hf⟩
    · rcases ih msgs saved m hm with h | ⟨raw, hraw, hf⟩
      · exact Or.inl h
      · exact Or.inr ⟨raw, List.mem_cons_of_mem b hraw, hf⟩

/-- C9 (amended): there is no whole-batch validation.  A message missing the
sender or text key makes the whole ingest call raise before its commit, so
the store is unchanged on that error; a message missing only the sender role
or timestamp is skipped inside the per-message handler while the rest of the
batch is ingested and the session row is updated; and in the new-session
save path every stored row originates from a message that carried all of its
fields, the malformed ones being skipped individually. -/
theorem c9_malformed_batch_handling :
    (∀ (db : DB) (sid : String) (B : List RawMsg) (now : Nat),
        (∃ m ∈ B, m.sender = none ∨ m.text = none) →
        ∃ e, update_existing_session db sid B now = .error e)
    ∧ (∀ (db : DB) (sid : String) (B : List RawMsg) (now : Nat) (db2 : DB) (k : Nat),
        update_existing_session db sid B now = .ok (db2, k) →
        ∀ m ∈ db2.messages, m ∈ db.messages
          ∨ ∃ raw ∈ B, raw.sender = some m.sender ∧ raw.sender_type = some m.sender_type
              ∧ raw.text = some m.message_text ∧ raw.timestamp = some m.timestamp)
    ∧ (∀ (db : DB) (sid : String) (B : List RawMsg) (now : Nat),
        ∀ m ∈ (save_chat_messages db sid B now).1.messages, m ∈ db.messages
          ∨ ∃ raw ∈ B, raw.message_id = some m.message_id ∧ raw.sender = some m.sender
              ∧ raw.sender_type = some m.sender_type ∧ raw.text = some m.message_text
              ∧ raw.timestamp = some m.timestamp ∧ raw.msg_order = some m.message_order) := by
  refine ⟨?_, ?_, ?_⟩
  · intro db sid B now hwit
    obtain ⟨e, he⟩ := ingestLoop_error_of_missing sid now B db.messages
      (maxOrder db.messages sid) 0 hwit
    refine ⟨e, ?_⟩
    unfold update_existing_session
    rw [he]
  · intro db sid B now db2 k hok m hm
    unfold update_existing_session at hok
    rcases hloop : ingestLoop sid now B db.messages (maxOrder db.messages sid) 0
      with e | ⟨msgs2, k2⟩ <;> rw [hloop] at hok
    · cases hok
    · simp only [Except.ok.injEq, Prod.mk.injEq] at hok
      have hmem : m ∈ msgs2 := by
        have : db2.messages = msgs2 := by rw [← hok.1]
        rw [← this]
        exact hm
      exact ingestLoop_provenance sid now B db.messages (maxOrder db.messages sid) 0
        msgs2 k2 hloop m hmem
  · intro db sid B now m hm
    exact saveMsgsLoop_provenance sid now B db.messages 0 m hm

/-- C9 witness: instantiates all three parts on a concrete malformed batch
and store. -/
theorem c9_malformed_batch_handling_witness :
    (∃ e, update_existing_session ⟨[plainSession "s" 0 0], []⟩ "s"
        [{ sender := none, text := some "hi" }] 5 = .error e)
    ∧ (∀ m ∈ (⟨[], [ingestRow "s" 5 "A" "incoming" "hi" "10:00" 1]⟩ : DB).messages,
        m ∈ ([] : List Message)
          ∨ ∃ raw ∈ [rawMsg "A" "hi" "10:00" "x1"], raw.sender = some m.sender
              ∧ raw.sender_type = some m.sender_type ∧ raw.text = some m.message_text
              ∧ raw.timestamp = some m.timestamp) := by
  constructor
  · exact c9_malformed_batch_handling.1 ⟨[plainSession "s" 0 0], []⟩ "s"
      [{ sender := none, text := some "hi" }] 5
      ⟨{ sender := none, text := some "hi" }, List.mem_cons_self _ _, Or.inl rfl⟩
  · intro m hm
    have hok : update_existing_session ⟨[plainSession "s" 0 0], []⟩ "s"
        [rawMsg "A" "hi" "10:00" "x1"] 5
        = .ok (⟨[rollupRow 5 1 (plainSession "s" 0 0)],
               [ingestRow "s" 5 "A" "incoming" "hi" "10:00" 1]⟩, 1) := by rfl
    exact c9_malformed_batch_handling.2.1 ⟨[plainSession "s" 0 0], []⟩ "s"
      [rawMsg "A" "hi" "10:00" "x1"] 5
      ⟨[rollupRow 5 1 (plainSession "s" 0 0)], [ingestRow "s" 5 "A" "incoming" "hi" "10:00" 1]⟩
      1 hok m hm

/-! Preservation of order monotonicity (claim C5). -/

/-- Messages-table form of the order-monotonicity invariant. -/
def MonoMsgs (msgs : List Message) : Prop :=
  ∀ sid : String,
    (((msgsOf msgs sid).map (fun m => m.message_order)).Pairwise (fun a b => a < b))

theorem orderMono_iff (db : DB) : OrderMono db ↔ MonoMsgs db.messages := Iff.rfl

theorem monoMsgs_append_one {msgs : List Message} {row : Message}
    (h : MonoMsgs msgs)
    (hhigh : ∀ m ∈ msgs, m.session_id = row.session_id →
      m.message_order < row.message_order) :
    MonoMsgs (msgs ++ [row]) := by
  intro sid
  rw [msgsOf_append]
  by_cases hs : row.session_id = sid
  · have hrow : msgsOf [row] sid = [row] := by simp [msgsOf, hs]
    rw [hrow, List.map_append]
    rw [List.pairwise_append]
    refine ⟨h sid, by simp, ?_⟩
    intro a ha b hb
    simp only [List.map_cons, List.map_nil, List.mem_cons, List.not_mem_nil, or_false] at hb
    rw [hb]
    simp only [List.mem_map] at ha
    obtain ⟨m, hm, hma⟩ := ha
    have hmem := List.mem_filter.mp hm
    rw [← hma]
    exact hhigh m hmem.1 (by have := hmem.2; simp at this; rw [this, ← hs])
  · have hrow : msgsOf [row] sid = [] := by simp [msgsOf, hs]
    rw [hrow, List.append_nil]
    exact h sid

theorem monoMsgs_filter (msgs : List Message) (p : Message → Bool)
    (h : MonoMsgs msgs) : MonoMsgs (msgs.filter p) := by
  intro sid
  have hsub : List.Sublist ((msgs.filter p).filter (fun m => m.session_id == sid))
      (msgs.filter (fun m => m.session_id == sid)) :=
    List.Sublist.filter _ (List.filter_sublist msgs)
  exact (h sid).sublist (hsub.map _)

theorem ingestLoop_mono (sid : String) (now : Nat) (B : List RawMsg) :
    ∀ (msgs : List Message) (maxo saved : Nat) (msgs2 : List Message) (k : Nat),
      ingestLoop sid now B msgs maxo saved = .ok (msgs2, k) →
      MonoMsgs msgs → (∀ m ∈ msgs, m.session_id = sid → m.message_order ≤ maxo) →
      MonoMsgs msgs2 := by
  induction B with
  | nil =>
    intro msgs maxo saved msgs2 k hok hmono hb
    simp only [ingestLoop, Except.ok.injEq, Prod.mk.injEq] at hok
    rw [← hok.1]
    exact hmono
  | cons b rest ih =>
    intro msgs maxo saved msgs2 k hok hmono hb
    rw [ingestLoop] at hok
    rcases hbs : b.sender with _ | s0 <;> rw [hbs] at hok
    · simp [field] at hok
    · rcases hbt : b.text with _ | t0 <;> rw [hbt] at hok
      · simp [field] at hok
      · simp only [field] at hok
        split at hok
        · exact ih msgs maxo saved msgs2 k hok hmono hb
        · split at hok
          · rename_i st ts hst2 hts2
            split at hok
            · exact ih msgs (maxo + 1) saved msgs2 k hok hmono
                (fun m hm hmsid => le_trans (hb m hm hmsid) (Nat.le_succ maxo))
            · refine ih _ (maxo + 1) (saved + 1) msgs2 k hok ?_ ?_
              · apply monoMsgs_append_one hmono
                intro m hm hmsid
                have := hb m hm (by simpa using hmsid)
                simp only [ingestRow]
                omega
              · intro m hm hmsid
                rcases List.mem_append.mp hm with h1 | h1
                · exact le_trans (hb m h1 hmsid) (Nat.le_succ maxo)
                · rcases List.mem_cons.mp h1 with h2 | h2
                  · rw [h2]; exact Nat.le_refl _
                  · cases h2
          · exact ih msgs (maxo + 1) saved msgs2 k hok hmono
              (fun m hm hmsid => le_trans (hb m hm hmsid) (Nat.le_succ maxo))

theorem mergeMsgLoop_mono (keep : String) (toMerge : List Message) :
    ∀ (msgs : List Message) (maxo : Nat) (st : MergeStats),
      MonoMsgs msgs → (∀ m ∈ msgs, m.session_id = keep → m.message_order ≤ maxo) →
      (MonoMsgs (mergeMsgLoop keep toMerge msgs maxo st).1
        ∧ (∀ m ∈ (mergeMsgLoop keep toMerge msgs maxo st).1,
            m.session_id = keep → m.message_order ≤ (mergeMsgLoop keep toMerge msgs maxo st).2.1)
        ∧ maxo ≤ (mergeMsgLoop keep toMerge msgs maxo st).2.1) := by
  induction toMerge with
  | nil =>
    intro msgs maxo st hmono hb
    exact ⟨hmono, hb, Nat.le_refl _⟩
  | cons t0 rest ih =>
    intro msgs maxo st hmono hb
    simp only [mergeMsgLoop]
    split
    · exact ih msgs maxo _ hmono hb
    · split
      · refine ih msgs (maxo + 1) st hmono ?_ |>.imp id (fun h => ⟨h.1, le_trans (Nat.le_succ maxo) h.2⟩)
        exact fun m hm hmsid => le_trans (hb m hm hmsid) (Nat.le_succ maxo)
      · have hmono2 : MonoMsgs (msgs ++ [movedRow keep (maxo + 1) t0]) := by
          apply monoMsgs_append_one hmono
          intro m hm hmsid
          have := hb m hm (by simpa [movedRow] using hmsid)
          simp only [movedRow]
          omega
        have hb2 : ∀ m ∈ msgs ++ [movedRow keep (maxo + 1) t0],
            m.session_id = keep → m.message_order ≤ maxo + 1 := by
          intro m hm hmsid
          rcases List.mem_append.mp hm with h1 | h1
          · exact le_trans (hb m h1 hmsid) (Nat.le_succ maxo)
          · rcases List.mem_cons.mp h1 with h2 | h2
            · rw [h2]; exact Nat.le_refl _
            · cases h2
        refine (ih _ (maxo + 1) _ hmono2 hb2).imp id (fun h => ⟨h.1, le_trans (Nat.le_succ maxo) h.2⟩)

theorem mergeRemoveStep_mono (keep removeId : String)
    (acc : List Session × List Message × Nat × MergeStats)
    (hmono : MonoMsgs acc.2.1)
    (hb : ∀ m ∈ acc.2.1, m.session_id = keep → m.message_order ≤ acc.2.2.1) :
    MonoMsgs (mergeRemoveStep keep acc removeId).2.1
      ∧ (∀ m ∈ (mergeRemoveStep keep acc removeId).2.1,
          m.session_id = keep → m.message_order ≤ (mergeRemoveStep keep acc removeId).2.2.1)
      ∧ acc.2.2.1 ≤ (mergeRemoveStep keep acc removeId).2.2.1 := by
  obtain ⟨hm1, hm2, hm3⟩ := mergeMsgLoop_mono keep
    (sortBy (fun a b => a.message_order ≤ b.message_order) (msgsOf acc.2.1 removeId))
    acc.2.1 acc.2.2.1 acc.2.2.2 hmono hb
  unfold mergeRemoveStep
  refine ⟨monoMsgs_filter _ _ hm1, ?_, hm3⟩
  intro m hm hmsid
  exact hm2 m (List.mem_of_mem_filter hm) hmsid

theorem mergeFold_mono (keep : String) (removes : List String) :
    ∀ (acc : List Session × List Message × Nat × MergeStats),
      MonoMsgs acc.2.1 → (∀ m ∈ acc.2.1, m.session_id = keep → m.message_order ≤ acc.2.2.1) →
      MonoMsgs (removes.foldl (mergeRemoveStep keep) acc).2.1 := by
  induction removes with
  | nil => intro acc hmono hb; exact hmono
  | cons r rest ih =>
    intro acc hmono hb
    obtain ⟨h1, h2, h3⟩ := mergeRemoveStep_mono keep r acc hmono hb
    exact ih (mergeRemoveStep keep acc r) h1 h2

theorem merge_preserves_mono (db : DB) (keep : String) (removes : List String) (now : Nat)
    (h : MonoMsgs db.messages) :
    MonoMsgs (merge_chat_sessions db keep removes now).1.messages := by
  unfold merge_chat_sessions
  exact mergeFold_mono keep removes _ h (fun m hm hmsid => le_maxOrder hm hmsid)

theorem cleanupFold_mono (now : Nat) (G : List DupGroup) :
    ∀ acc : DB × CleanupStats, MonoMsgs acc.1.messages →
      MonoMsgs (G.foldl (cleanupGroupStep now) acc).1.messages := by
  induction G with
  | nil => intro acc hacc; exact hacc
  | cons g rest ih =>
    intro acc hacc
    exact ih _ (merge_preserves_mono acc.1 g.keep_session g.remove_sessions now hacc)

theorem cleanup_preserves_mono (db : DB) (now : Nat) (h : MonoMsgs db.messages) :
    MonoMsgs (cleanup_duplicate_chat_sessions db now).1.messages := by
  simp only [cleanup_duplicate_chat_sessions]
  split
  · exact h
  · exact cleanupFold_mono now _ _ h

/-- C5: order monotonicity is an invariant of every sequence of ingest,
merge and reconcile operations: if every session's order positions are
strictly increasing in append order before, they are after, with no
position shared by two messages of a session. -/
theorem c5_order_monotonicity (db : DB) (ops : List MMOp) (h : OrderMono db) :
    OrderMono (runOps db ops) := by
  induction ops generalizing db with
  | nil => exact h
  | cons op rest ih =>
    refine ih (stepOp db op) ?_
    rcases op with ⟨sid, batch, now⟩ | ⟨keep, removes, now⟩ | now
    · rcases hup : update_existing_session db sid batch now with e | ⟨db2, k⟩
      · have hstep : stepOp db (.ingest sid batch now) = db := by
          simp only [stepOp, hup]
        rw [hstep]
        exact h
      · have hstep : stepOp db (.ingest sid batch now) = db2 := by
          simp only [stepOp, hup]
        rw [hstep]
        unfold update_existing_session at hup
        rcases hloop : ingestLoop sid now batch db.messages (maxOrder db.messages sid) 0
          with e | ⟨msgs2, k2⟩ <;> rw [hloop] at hup
        · cases hup
        · simp only [Except.ok.injEq, Prod.mk.injEq] at hup
          intro s
          have hmsg : db2.messages = msgs2 := by rw [← hup.1]
          rw [hmsg]
          exact ingestLoop_mono sid now batch db.messages (maxOrder db.messages sid) 0
            msgs2 k2 hloop h (fun m hm hmsid => le_maxOrder hm hmsid) s
    · exact merge_preserves_mono db keep removes now h
    · exact cleanup_preserves_mono db now h

/-- C5 witness: a store with two duplicate sessions, an ingest and a
reconcile pass. -/
theorem c5_order_monotonicity_witness :
    OrderMono ⟨[plainSession "a" 0 0, plainSession "b" 0 1], []⟩
      ∧ OrderMono (runOps ⟨[plainSession "a" 0 0, plainSession "b" 0 1], []⟩
          [MMOp.ingest "a" [rawMsg "Alice" "hi" "10:00" "x1"] 5, MMOp.reconcile 9]) := by
  have h0 : OrderMono ⟨[plainSession "a" 0 0, plainSession "b" 0 1], []⟩ := by
    intro sid
    simp [msgsOf]
  exact ⟨h0, c5_order_monotonicity _ _ h0⟩

/-! Session-table characterization of the reconciler (claims C3 and C4). -/

theorem contains_iff_mem {l : List String} {x : String} :
    l.contains x = true ↔ x ∈ l := by
  induction l with
  | nil => simp
  | cons a t ih => simp [List.contains_cons, ih, or_comm]

theorem contains_eq_decide_mem (l : List String) (x : String) :
    l.contains x = decide (x ∈ l) := by
  by_cases h : x ∈ l
  · rw [contains_iff_mem.mpr h]
    simp [h]
  · have hc : l.contains x = false :=
      Bool.eq_false_iff.mpr (fun hc => h (contains_iff_mem.mp hc))
    rw [hc]
    simp [h]

/-- All ids the cleanup pass deletes: the remove lists of every group. -/
def allRemoves : List DupGroup → List String
  | [] => []
  | g :: rest => g.remove_sessions ++ allRemoves rest

theorem mem_allRemoves {G : List DupGroup} {g : DupGroup} {x : String}
    (hg : g ∈ G) (hx : x ∈ g.remove_sessions) : x ∈ allRemoves G := by
  induction G with
  | nil => cases hg
  | cons a t ih =>
    rcases List.mem_cons.mp hg with h | h
    · rw [h] at hx
      exact List.mem_append_left _ hx
    · exact List.mem_append_right _ (ih h)

theorem mergeFold_sessions (keep : String) (removes : List String) :
    ∀ acc : List Session × List Message × Nat × MergeStats,
      (removes.foldl (mergeRemoveStep keep) acc).1
        = acc.1.filter (fun s => !(removes.contains s.session_id)) := by
  induction removes with
  | nil =>
    intro acc
    rw [List.foldl_nil]
    symm
    apply List.filter_eq_self.mpr
    intro s _
    simp
  | cons r rs ih =>
    intro acc
    rw [List.foldl_cons, ih]
    show (acc.1.filter (fun s => !(s.session_id == r))).filter
        (fun s => !(rs.contains s.session_id))
      = acc.1.filter (fun s => !((r :: rs).contains s.session_id))
    rw [List.filter_filter]
    apply List.filter_congr
    intro s _
    by_cases h1 : s.session_id = r <;> by_cases h2 : s.session_id ∈ rs <;>
      simp [List.contains_cons, contains_eq_decide_mem, h1, h2]

/-- Bundle of properties of a session-row transformation that never touches
identity, fingerprint or eligibility. -/
def RowPreserving (F : Session → Session) : Prop :=
  ∀ s : Session, (F s).session_id = s.session_id ∧ fpOf (F s) = fpOf s
    ∧ eligible (F s) = eligible s

theorem rowPreserving_id : RowPreserving id := fun _ => ⟨rfl, rfl, rfl⟩

theorem rowPreserving_comp {F G : Session → Session}
    (hF : RowPreserving F) (hG : RowPreserving G) : RowPreserving (F ∘ G) := by
  intro s
  obtain ⟨a1, a2, a3⟩ := hF (G s)
  obtain ⟨b1, b2, b3⟩ := hG s
  exact ⟨a1.trans b1, a2.trans b2, a3.trans b3⟩

theorem rowPreserving_keepUpdate (keep : String) (now c : Nat) :
    RowPreserving (fun s => if s.session_id == keep then rollupRow now c s else s) := by
  intro s
  dsimp only
  by_cases h : (s.session_id == keep) = true
  · rw [if_pos h]
    exact ⟨rfl, rfl, rfl⟩
  · rw [if_neg h]
    exact ⟨rfl, rfl, rfl⟩

theorem contains_append (a b : List String) (x : String) :
    (a ++ b).contains x = (a.contains x || b.contains x) := by
  induction a with
  | nil => simp
  | cons y t ih => simp [List.contains_cons, ih, Bool.or_assoc]

theorem merge_sessions_eq (db : DB) (keep : String) (removes : List String) (now : Nat) :
    (merge_chat_sessions db keep removes now).1.sessions
      = (db.sessions.filter (fun s => !(removes.contains s.session_id))).map
          (fun s => if s.session_id == keep then
              rollupRow now
                (countMsgs (merge_chat_sessions db keep removes now).1.messages keep) s
            else s) := by
  have h := mergeFold_sessions keep removes
    (db.sessions, db.messages, maxOrder db.messages keep,
     { total_messages_before := countMsgs db.messages keep })
  show (List.foldl (mergeRemoveStep keep)
      (db.sessions, db.messages, maxOrder db.messages keep,
       { total_messages_before := countMsgs db.messages keep }) removes).1.map _ = _
  rw [h]
  rfl

theorem merge_sessions_shape (db : DB) (keep : String) (removes : List String) (now : Nat) :
    ∃ c, (merge_chat_sessions db keep removes now).1.sessions
      = (db.sessions.filter (fun s => !(removes.contains s.session_id))).map
          (fun s => if s.session_id == keep then rollupRow now c s else s) :=
  ⟨countMsgs (merge_chat_sessions db keep removes now).1.messages keep,
   merge_sessions_eq db keep removes now⟩

theorem filter_map_comm (l : List Session) (F : Session → Session) (p : Session → Bool)
    (hp : ∀ s, p (F s) = p s) :
    (l.map F).filter p = (l.filter p).map F := by
  induction l with
  | nil => rfl
  | cons a t ih =>
    simp only [List.map_cons, List.filter_cons, hp a]
    split
    · simp [List.map_cons, ih]
    · exact ih

theorem cleanupFold_sessions (now : Nat) (G : List DupGroup) :
    ∀ db : DB, ∀ st : CleanupStats,
      ∃ F, RowPreserving F
        ∧ (G.foldl (cleanupGroupStep now) (db, st)).1.sessions
            = (db.sessions.filter
                (fun s => !((allRemoves G).contains s.session_id))).map F := by
  induction G with
  | nil =>
    intro db st
    refine ⟨id, rowPreserving_id, ?_⟩
    rw [List.foldl_nil, List.map_id]
    symm
    apply List.filter_eq_self.mpr
    intro s _
    simp [allRemoves]
  | cons g rest ih =>
    intro db st
    rw [List.foldl_cons]
    obtain ⟨c, hc⟩ := merge_sessions_shape db g.keep_session g.remove_sessions now
    set Fg := fun s => if s.session_id == g.keep_session then rollupRow now c s else s with hFg
    have hFgp : RowPreserving Fg := rowPreserving_keepUpdate g.keep_session now c
    obtain ⟨F2, hF2p, hF2⟩ := ih (cleanupGroupStep now (db, st) g).1
      (cleanupGroupStep now (db, st) g).2
    refine ⟨F2 ∘ Fg, rowPreserving_comp hF2p hFgp, ?_⟩
    have hsess1 : (cleanupGroupStep now (db, st) g).1.sessions
        = (db.sessions.filter
            (fun s => !(g.remove_sessions.contains s.session_id))).map Fg := by
      show (merge_chat_sessions db g.keep_session g.remove_sessions now).1.sessions = _
      exact hc
    have hstep : (rest.foldl (cleanupGroupStep now) (cleanupGroupStep now (db, st) g)).1.sessions
        = ((cleanupGroupStep now (db, st) g).1.sessions.filter
            (fun s => !((allRemoves rest).contains s.session_id))).map F2 := by
      rw [Prod.mk.eta] at hF2
      exact hF2
    rw [hstep, hsess1, filter_map_comm _ Fg _ (fun s => by rw [(hFgp s).1]),
      List.filter_filter, List.map_map]
    congr 1
    apply List.filter_congr
    intro s _
    show (!((allRemoves rest).contains s.session_id)
        && !(g.remove_sessions.contains s.session_id))
      = !((allRemoves (g :: rest)).contains s.session_id)
    have hcons : allRemoves (g :: rest) = g.remove_sessions ++ allRemoves rest := rfl
    rw [hcons, contains_append]
    by_cases h1 : s.session_id ∈ g.remove_sessions <;>
      by_cases h2 : s.session_id ∈ allRemoves rest <;>
        simp [contains_eq_decide_mem, h1, h2]

theorem fingerprints_sound (db : DB) :
    ∀ f ∈ fingerprints db, ∃ s ∈ db.sessions, eligible s = true ∧ fpOf s = f := by
  have hgen : ∀ (l : List Session)
      (acc : List (Option String × Option String × Option String)),
      (∀ f ∈ acc, ∃ s ∈ db.sessions, eligible s = true ∧ fpOf s = f) →
      (∀ s ∈ l, s ∈ db.sessions ∧ eligible s = true) →
      ∀ f ∈ l.foldl (fun acc s => if acc.contains (fpOf s) then acc else acc ++ [fpOf s]) acc,
        ∃ s ∈ db.sessions, eligible s = true ∧ fpOf s = f := by
    intro l
    induction l with
    | nil => intro acc hacc _ f hf; exact hacc f hf
    | cons a t ih =>
      intro acc hacc hl f hf
      rw [List.foldl_cons] at hf
      by_cases hcont : acc.contains (fpOf a) = true
      · rw [if_pos hcont] at hf
        exact ih acc hacc (fun s hs => hl s (List.mem_cons_of_mem a hs)) f hf
      · rw [if_neg hcont] at hf
        refine ih (acc ++ [fpOf a]) ?_ (fun s hs => hl s (List.mem_cons_of_mem a hs)) f hf
        intro f2 hf2
        rcases List.mem_append.mp hf2 with h | h
        · exact hacc f2 h
        · rcases List.mem_cons.mp h with h1 | h1
          · obtain ⟨ha1, ha2⟩ := hl a (List.mem_cons_self _ _)
            exact ⟨a, ha1, ha2, h1.symm⟩
          · cases h1
  intro f hf
  exact hgen (db.sessions.filter eligible) [] (by simp)
    (fun s hs => ⟨List.mem_of_mem_filter hs, (List.mem_filter.mp hs).2⟩) f hf

theorem fingerprints_complete (db : DB) :
    ∀ s ∈ db.sessions, eligible s = true → fpOf s ∈ fingerprints db := by
  have hgen : ∀ (l : List Session)
      (acc : List (Option String × Option String × Option String)) (x : Session),
      x ∈ l ∨ fpOf x ∈ acc →
      fpOf x ∈ l.foldl (fun acc s => if acc.contains (fpOf s) then acc else acc ++ [fpOf s]) acc := by
    intro l
    induction l with
    | nil =>
      intro acc x hx
      rcases hx with h | h
      · cases h
      · exact h
    | cons a t ih =>
      intro acc x hx
      rw [List.foldl_cons]
      by_cases hcont : acc.contains (fpOf a) = true
      · rw [if_pos hcont]
        rcases hx with h | h
        · rcases List.mem_cons.mp h with h1 | h1
          · refine ih acc x (Or.inr ?_)
            rw [h1]
            have : fpOf a ∈ acc := by
              have hbridge : acc.contains (fpOf a) = true ↔ fpOf a ∈ acc := by
                induction acc with
                | nil => simp
                | cons y ys ihy => simp [List.contains_cons, or_comm] at ihy ⊢
              exact hbridge.mp hcont
            exact this
          · exact ih acc x (Or.inl h1)
        · exact ih acc x (Or.inr h)
      · rw [if_neg hcont]
        rcases hx with h | h
        · rcases List.mem_cons.mp h with h1 | h1
          · refine ih (acc ++ [fpOf a]) x (Or.inr ?_)
            rw [h1]
            exact List.mem_append_right _ (List.mem_cons_self _ _)
          · exact ih _ x (Or.inl h1)
        · exact ih _ x (Or.inr (List.mem_append_left _ h))
  intro s hs he
  exact hgen (db.sessions.filter eligible) [] s
    (Or.inl (List.mem_filter.mpr ⟨hs, he⟩))

theorem groupRows_eq_filter (db : DB) (f : Option String × Option String × Option String) :
    List.Perm (groupRows db f) (db.sessions.filter (fun s => eligible s && fpOf s == f)) := by
  unfold groupRows
  have hperm := sortBy_perm keyGe ((db.sessions.filter eligible).filter (fun s => fpOf s == f))
  refine hperm.trans ?_
  rw [List.filter_filter]
  have heq : (List.filter (fun a => fpOf a == f && eligible a) db.sessions)
      = (db.sessions.filter (fun s => eligible s && fpOf s == f)) := by
    apply List.filter_congr
    intro s _
    rcases h1 : eligible s <;> rcases h2 : (fpOf s == f) <;> simp [h1, h2]
  rw [heq]

theorem find_dup_eq_nil_iff (db : DB) :
    find_duplicate_chat_sessions db = []
      ↔ ∀ f ∈ fingerprints db, (groupRows db f).length ≤ 1 := by
  unfold find_duplicate_chat_sessions
  constructor
  · intro h f hf
    by_contra hlen
    have hmem : mkGroup f (groupRows db f)
        ∈ (((fingerprints db).map (fun f => mkGroup f (groupRows db f))).filter
            (fun g => 1 < g.duplicate_count)) := by
      apply List.mem_filter.mpr
      refine ⟨List.mem_map_of_mem _ hf, ?_⟩
      simp only [mkGroup, decide_eq_true_eq]
      omega
    rw [← @mem_sortBy _ countGe _ _] at hmem
    rw [h] at hmem
    cases hmem
  · intro h
    have hnil : (((fingerprints db).map (fun f => mkGroup f (groupRows db f))).filter
        (fun g => 1 < g.duplicate_count)) = [] := by
      apply List.filter_eq_nil_iff.mpr
      intro g hg
      rcases List.mem_map.mp hg with ⟨f, hf, hgf⟩
      rw [← hgf]
      simp only [mkGroup, decide_eq_true_eq]
      have := h f hf
      omega
    rw [hnil]
    rfl

theorem nodup_key_inj {α β : Type} {l : List α} {f : α → β}
    (h : (l.map f).Nodup) :
    ∀ a ∈ l, ∀ b ∈ l, f a = f b → a = b := by
  induction l with
  | nil => intro a ha; cases ha
  | cons x t ih =>
    simp only [List.map_cons, List.nodup_cons] at h
    intro a ha b hb hab
    rcases List.mem_cons.mp ha with h1 | h1 <;> rcases List.mem_cons.mp hb with h2 | h2
    · rw [h1, h2]
    · exfalso
      apply h.1
      rw [h1] at hab
      rw [hab]
      exact List.mem_map_of_mem f h2
    · exfalso
      apply h.1
      rw [h2] at hab
      rw [← hab]
      exact List.mem_map_of_mem f h1
    · exact ih h.2 a h1 b h2 hab

theorem length_le_one_of_const {α β : Type} {l : List α} {f : α → β} {c : β}
    (hnodup : (l.map f).Nodup) (hconst : ∀ x ∈ l, f x = c) : l.length ≤ 1 := by
  rcases l with _ | ⟨a, _ | ⟨b, t⟩⟩
  · simp
  · simp
  · exfalso
    simp only [List.map_cons, List.nodup_cons] at hnodup
    apply hnodup.1
    have ha := hconst a (List.mem_cons_self _ _)
    have hb := hconst b (List.mem_cons_of_mem a (List.mem_cons_self _ _))
    rw [ha, ← hb]
    exact List.mem_cons_self _ _

theorem find_dup_mem_group (db : DB) {g : DupGroup}
    (hg : g ∈ find_duplicate_chat_sessions db) :
    ∃ f ∈ fingerprints db, g = mkGroup f (groupRows db f) ∧ 2 ≤ (groupRows db f).length := by
  unfold find_duplicate_chat_sessions at hg
  rw [mem_sortBy] at hg
  have hmem := List.mem_filter.mp hg
  rcases List.mem_map.mp hmem.1 with ⟨f, hf, hgf⟩
  refine ⟨f, hf, hgf.symm, ?_⟩
  have hcount := hmem.2
  rw [← hgf] at hcount
  simp only [mkGroup, decide_eq_true_eq] at hcount
  omega

theorem group_mem_find_dup (db : DB) {f : Option String × Option String × Option String}
    (hf : f ∈ fingerprints db) (hlen : 2 ≤ (groupRows db f).length) :
    mkGroup f (groupRows db f) ∈ find_duplicate_chat_sessions db := by
  unfold find_duplicate_chat_sessions
  rw [mem_sortBy]
  apply List.mem_filter.mpr
  refine ⟨List.mem_map_of_mem _ hf, ?_⟩
  simp only [mkGroup, decide_eq_true_eq]
  omega

theorem filter_comm_sessions (l : List Session) (p q : Session → Bool) :
    (l.filter p).filter q = (l.filter q).filter p := by
  rw [List.filter_filter, List.filter_filter]
  apply List.filter_congr
  intro s _
  rcases h1 : p s <;> rcases h2 : q s <;> simp [h1, h2]

theorem cleanup_collapses (db : DB) (now : Nat)
    (hnodup : (db.sessions.map (fun s => s.session_id)).Nodup) :
    find_duplicate_chat_sessions (cleanup_duplicate_chat_sessions db now).1 = [] := by
  by_cases hempty : (find_duplicate_chat_sessions db).isEmpty = true
  · have hdb : (cleanup_duplicate_chat_sessions db now).1 = db := by
      unfold cleanup_duplicate_chat_sessions
      rw [if_pos hempty]
    rw [hdb]
    simpa using hempty
  · have hdb2 : (cleanup_duplicate_chat_sessions db now).1
        = ((find_duplicate_chat_sessions db).foldl (cleanupGroupStep now)
            (db, { duplicate_groups_found := (find_duplicate_chat_sessions db).length,
                   success := true })).1 := by
      unfold cleanup_duplicate_chat_sessions
      rw [if_neg hempty]
    obtain ⟨F, hFp, hsess⟩ := cleanupFold_sessions now (find_duplicate_chat_sessions db) db
      { duplicate_groups_found := (find_duplicate_chat_sessions db).length, success := true }
    have hsess2 : (cleanup_duplicate_chat_sessions db now).1.sessions
        = (db.sessions.filter (fun s =>
            !((allRemoves (find_duplicate_chat_sessions db)).contains s.session_id))).map F := by
      rw [hdb2]
      exact hsess
    apply (find_dup_eq_nil_iff (cleanup_duplicate_chat_sessions db now).1).mpr
    intro f hf
    have hlen1 : (groupRows (cleanup_duplicate_chat_sessions db now).1 f).length
        = (((cleanup_duplicate_chat_sessions db now).1.sessions.filter
            (fun s => eligible s && fpOf s == f))).length :=
      (groupRows_eq_filter (cleanup_duplicate_chat_sessions db now).1 f).length_eq
    rw [hlen1, hsess2,
      filter_map_comm _ F _ (fun s => by
        obtain ⟨-, h2, h3⟩ := hFp s
        rw [h2, h3]),
      List.length_map,
      filter_comm_sessions]
    by_cases hM : (db.sessions.filter (fun s => eligible s && fpOf s == f)).length ≤ 1
    · exact le_trans (List.length_filter_le _ _) hM
    · push_neg at hM
      have hne : db.sessions.filter (fun s => eligible s && fpOf s == f) ≠ [] := by
        intro h
        rw [h] at hM
        simp at hM
      obtain ⟨m0, hm0⟩ := List.exists_mem_of_ne_nil _ hne
      · have hm0p := List.mem_filter.mp hm0
        have hm0e : eligible m0 = true := by
          have := hm0p.2
          simp only [Bool.and_eq_true] at this
          exact this.1
        have hm0f : fpOf m0 = f := by
          have := hm0p.2
          simp only [Bool.and_eq_true, beq_iff_eq] at this
          exact this.2
        have hffp : f ∈ fingerprints db := by
          rw [← hm0f]
          exact fingerprints_complete db m0 hm0p.1 hm0e
        have hMlen : 2 ≤ (db.sessions.filter (fun s => eligible s && fpOf s == f)).length := hM
        have hglen : 2 ≤ (groupRows db f).length := by
          rw [(groupRows_eq_filter db f).length_eq]
          exact hMlen
        have hgG := group_mem_find_dup db hffp hglen
        rcases hgr : groupRows db f with _ | ⟨r0, rtail⟩
        · rw [hgr] at hglen; simp at hglen
        · have hkeep : (mkGroup f (groupRows db f)).keep_session = r0.session_id := by
            rw [hgr]
            rfl
          have hremoves : (mkGroup f (groupRows db f)).remove_sessions = rtail.map
              (fun s => s.session_id) := by
            rw [hgr]
            rfl
          have hconst : ∀ s ∈ (db.sessions.filter (fun s => eligible s && fpOf s == f)).filter
              (fun s => !((allRemoves (find_duplicate_chat_sessions db)).contains s.session_id)),
              s.session_id = r0.session_id := by
            intro s hs
            have hs1 := List.mem_filter.mp hs
            have hsrows : s ∈ groupRows db f :=
              (groupRows_eq_filter db f).mem_iff.mpr hs1.1
            rw [hgr] at hsrows
            rcases List.mem_cons.mp hsrows with h1 | h1
            · rw [h1]
            · exfalso
              have hsid : s.session_id ∈ (mkGroup f (groupRows db f)).remove_sessions := by
                rw [hremoves]
                exact List.mem_map_of_mem _ h1
              have hAR : s.session_id ∈ allRemoves (find_duplicate_chat_sessions db) :=
                mem_allRemoves hgG hsid
              have := hs1.2
              rw [contains_iff_mem.mpr hAR] at this
              cases this
          apply length_le_one_of_const ?_ hconst
          have hsub : List.Sublist
              ((db.sessions.filter (fun s => eligible s && fpOf s == f)).filter
                (fun s => !((allRemoves (find_duplicate_chat_sessions db)).contains s.session_id)))
              db.sessions :=
            List.Sublist.trans (List.filter_sublist _) (List.filter_sublist _)
          exact hnodup.sublist (hsub.map _)

/-- The all-zero statistics dictionary the reconciler returns when there is
nothing to do. -/
def zeroCleanupStats : CleanupStats :=
  { duplicate_groups_found := 0, sessions_removed := 0, messages_merged := 0,
    duplicate_messages_skipped := 0, groups_processed := 0, success := true }

theorem cleanup_of_no_dups (db : DB) (now : Nat)
    (h : find_duplicate_chat_sessions db = []) :
    cleanup_duplicate_chat_sessions db now = (db, zeroCleanupStats) := by
  unfold cleanup_duplicate_chat_sessions
  rw [h]
  rfl

/-- C4: reconciliation is safe on an empty workload and idempotent.  With
zero duplicate groups it mutates nothing and returns all-zero counts with a
success flag; and right after one pass (on a store whose session ids are
unique, the table constraint), a second pass finds zero duplicate groups,
mutates nothing and returns all-zero counts. -/
theorem c4_reconcile_idempotent (db : DB) (now now2 : Nat)
    (hnodup : (db.sessions.map (fun s => s.session_id)).Nodup) :
    (find_duplicate_chat_sessions db = [] →
        cleanup_duplicate_chat_sessions db now = (db, zeroCleanupStats))
    ∧ find_duplicate_chat_sessions (cleanup_duplicate_chat_sessions db now).1 = []
    ∧ cleanup_duplicate_chat_sessions (cleanup_duplicate_chat_sessions db now).1 now2
        = ((cleanup_duplicate_chat_sessions db now).1, zeroCleanupStats) := by
  have h2 := cleanup_collapses db now hnodup
  exact ⟨cleanup_of_no_dups db now, h2,
    cleanup_of_no_dups (cleanup_duplicate_chat_sessions db now).1 now2 h2⟩

/-- C4 witness: a store with two duplicate sessions and one with none. -/
theorem c4_reconcile_idempotent_witness :
    (cleanup_duplicate_chat_sessions ⟨[plainSession "x" 1 1], []⟩ 5
        = (⟨[plainSession "x" 1 1], []⟩, zeroCleanupStats))
    ∧ find_duplicate_chat_sessions
        (cleanup_duplicate_chat_sessions
          ⟨[plainSession "a" 2 1, plainSession "b" 3 2], []⟩ 9).1 = []
    ∧ cleanup_duplicate_chat_sessions
        (cleanup_duplicate_chat_sessions
          ⟨[plainSession "a" 2 1, plainSession "b" 3 2], []⟩ 9).1 11
        = ((cleanup_duplicate_chat_sessions
            ⟨[plainSession "a" 2 1, plainSession "b" 3 2], []⟩ 9).1, zeroCleanupStats) := by
  refine ⟨(c4_reconcile_idempotent ⟨[plainSession "x" 1 1], []⟩ 5 5 (by decide)).1 (by decide),
    (c4_reconcile_idempotent ⟨[plainSession "a" 2 1, plainSession "b" 3 2], []⟩ 9 11
      (by decide)).2.1,
    (c4_reconcile_idempotent ⟨[plainSession "a" 2 1, plainSession "b" 3 2], []⟩ 9 11
      (by decide)).2.2⟩

/-! Message-table characterization of merge_chat_sessions (claim C3). -/

theorem msgsOf_filter_other {msgs : List Message} {sid r : String} (h : sid ≠ r) :
    msgsOf (msgs.filter (fun m => !(m.session_id == r))) sid = msgsOf msgs sid := by
  unfold msgsOf
  rw [List.filter_filter]
  apply List.filter_congr
  intro m _
  by_cases hm : m.session_id = sid
  · have hr : (m.session_id == r) = false := by
      simp only [hm, beq_eq_false_iff_ne, ne_eq]
      exact h
    simp [hm, hr, h]
  · simp [hm]

theorem msgsOf_filter_self (msgs : List Message) (r : String) :
    msgsOf (msgs.filter (fun m => !(m.session_id == r))) r = [] := by
  unfold msgsOf
  rw [List.filter_filter]
  apply List.filter_eq_nil_iff.mpr
  intro m _
  by_cases hm : m.session_id = r <;> simp [hm]

theorem msgsOf_keeprows {msgs tail : List Message} {sid keep : String}
    (htail : ∀ t ∈ tail, t.session_id = keep) (h : sid ≠ keep) :
    msgsOf (msgs ++ tail) sid = msgsOf msgs sid := by
  rw [msgsOf_append]
  have hnil : msgsOf tail sid = [] := by
    apply List.filter_eq_nil_iff.mpr
    intro t ht
    simp only [beq_iff_eq, htail t ht]
    exact fun hh => h hh.symm
  rw [hnil, List.append_nil]

theorem maxOrder_movedRow_singleton (keep : String) (o : Nat) (m : Message) :
    maxOrder [movedRow keep o m] keep = o := by
  simp [maxOrder, msgsOf, movedRow]

theorem keysOfSession_movedRow_singleton (keep : String) (o : Nat) (m : Message) :
    keysOfSession [movedRow keep o m] keep = [(m.sender, m.message_text)] := by
  simp [keysOfSession, msgsOf, movedRow]

theorem mergeMsgLoop_spec (keep : String) (L : List Message) :
    ∀ (msgs : List Message) (mx : Nat) (st : MergeStats),
      maxOrder msgs keep ≤ mx →
      (∀ m ∈ msgs, ∀ n, mx < n → m.message_id ≠ mkId keep n) →
      ∃ tail,
        (mergeMsgLoop keep L msgs mx st).1 = msgs ++ tail
        ∧ mx ≤ (mergeMsgLoop keep L msgs mx st).2.1
        ∧ maxOrder (msgs ++ tail) keep ≤ (mergeMsgLoop keep L msgs mx st).2.1
        ∧ (∀ m ∈ msgs ++ tail, ∀ n, (mergeMsgLoop keep L msgs mx st).2.1 < n →
            m.message_id ≠ mkId keep n)
        ∧ (∀ t ∈ tail, ∃ m ∈ L, ∃ o, t = movedRow keep o m)
        ∧ (∀ k : String × String, k ∈ keysOfSession (msgs ++ tail) keep
            ↔ k ∈ keysOfSession msgs keep ∨ ∃ m ∈ L, (m.sender, m.message_text) = k) := by
  induction L with
  | nil =>
    intro msgs mx st hmax hstale
    refine ⟨[], by simp [mergeMsgLoop], Nat.le_refl _, ?_, ?_, ?_, ?_⟩
    · rw [List.append_nil]
      exact hmax
    · rw [List.append_nil]
      exact hstale
    · intro t ht
      cases ht
    · intro k
      rw [List.append_nil]
      simp
  | cons m rest ih =>
    intro msgs mx st hmax hstale
    simp only [mergeMsgLoop]
    split
    · rename_i hd
      obtain ⟨tail, h1, h2, h3, h4, h5, h6⟩ := ih msgs mx
        { st with duplicate_messages_skipped := st.duplicate_messages_skipped + 1 } hmax hstale
      refine ⟨tail, h1, h2, h3, h4, ?_, ?_⟩
      · intro t ht
        obtain ⟨m2, hm2, o, ho⟩ := h5 t ht
        exact ⟨m2, List.mem_cons_of_mem _ hm2, o, ho⟩
      · intro k
        rw [h6 k]
        constructor
        · rintro (h | ⟨m2, hm2, hk⟩)
          · exact Or.inl h
          · exact Or.inr ⟨m2, List.mem_cons_of_mem _ hm2, hk⟩
        · rintro (h | ⟨m2, hm2, hk⟩)
          · exact Or.inl h
          · rcases List.mem_cons.mp hm2 with h1 | h1
            · rw [h1] at hk
              exact Or.inl (hk ▸ dedupExists_iff_mem_keys.mp hd)
            · exact Or.inr ⟨m2, h1, hk⟩
    · rename_i hd
      split
      · rename_i hid
        exfalso
        obtain ⟨m2, hm2, hbeq⟩ := List.any_eq_true.mp hid
        exact hstale m2 hm2 (mx + 1) (Nat.lt_succ_self mx) (beq_iff_eq.mp hbeq)
      · rename_i hid
        have hmax2 : maxOrder (msgs ++ [movedRow keep (mx + 1) m]) keep ≤ mx + 1 := by
          rw [maxOrder_append, maxOrder_movedRow_singleton]
          omega
        have hstale2 : ∀ m2 ∈ msgs ++ [movedRow keep (mx + 1) m], ∀ n, mx + 1 < n →
            m2.message_id ≠ mkId keep n := by
          intro m2 hm2 n hn
          rcases List.mem_append.mp hm2 with h1 | h1
          · exact hstale m2 h1 n (by omega)
          · rcases List.mem_cons.mp h1 with h2 | h2
            · rw [h2]
              intro hcontra
              have := mkId_inj hcontra
              omega
            · cases h2
        obtain ⟨tail, h1, h2, h3, h4, h5, h6⟩ :=
          ih (msgs ++ [movedRow keep (mx + 1) m]) (mx + 1)
            { st with messages_merged := st.messages_merged + 1 } hmax2 hstale2
        have hsplit : msgs ++ movedRow keep (mx + 1) m :: tail
            = (msgs ++ [movedRow keep (mx + 1) m]) ++ tail := by
          rw [List.append_cons]
        refine ⟨movedRow keep (mx + 1) m :: tail, ?_, ?_, ?_, ?_, ?_, ?_⟩
        · rw [hsplit]
          exact h1
        · omega
        · rw [hsplit]
          exact h3
        · rw [hsplit]
          exact h4
        · intro t ht
          rcases List.mem_cons.mp ht with h7 | h7
          · exact ⟨m, List.mem_cons_self _ _, mx + 1, h7⟩
          · obtain ⟨m2, hm2, o, ho⟩ := h5 t h7
            exact ⟨m2, List.mem_cons_of_mem _ hm2, o, ho⟩
        · intro k
          rw [hsplit, h6 k, keysOfSession_append, keysOfSession_movedRow_singleton]
          constructor
          · rintro (h | ⟨m2, hm2, hk⟩)
            · rcases List.mem_append.mp h with h7 | h7
              · exact Or.inl h7
              · rcases List.mem_cons.mp h7 with h8 | h8
                · exact Or.inr ⟨m, List.mem_cons_self _ _, h8.symm⟩
                · cases h8
            · exact Or.inr ⟨m2, List.mem_cons_of_mem _ hm2, hk⟩
          · rintro (h | ⟨m2, hm2, hk⟩)
            · exact Or.inl (List.mem_append_left _ h)
            · rcases List.mem_cons.mp hm2 with h7 | h7
              · refine Or.inl (List.mem_append_right _ ?_)
                rw [h7] at hk
                rw [← hk]
                exact List.mem_cons_self _ _
              · exact Or.inr ⟨m2, h7, hk⟩

theorem keysOfSession_congr {a b : List Message} {sid : String}
    (h : msgsOf a sid = msgsOf b sid) : keysOfSession a sid = keysOfSession b sid := by
  unfold keysOfSession
  rw [h]

theorem maxOrder_congr {a b : List Message} {sid : String}
    (h : msgsOf a sid = msgsOf b sid) : maxOrder a sid = maxOrder b sid := by
  unfold maxOrder
  rw [h]

theorem mergeRemoveStep_spec (keep r : String)
    (acc : List Session × List Message × Nat × MergeStats)
    (hmax : maxOrder acc.2.1 keep ≤ acc.2.2.1)
    (hstale : ∀ m ∈ acc.2.1, ∀ n, acc.2.2.1 < n → m.message_id ≠ mkId keep n)
    (hkr : keep ≠ r) :
    (∀ sid, sid ≠ keep → sid ≠ r →
        msgsOf (mergeRemoveStep keep acc r).2.1 sid = msgsOf acc.2.1 sid)
    ∧ msgsOf (mergeRemoveStep keep acc r).2.1 r = []
    ∧ (∀ k : String × String, k ∈ keysOfSession (mergeRemoveStep keep acc r).2.1 keep
        ↔ k ∈ keysOfSession acc.2.1 keep ∨ k ∈ keysOfSession acc.2.1 r)
    ∧ (∀ m ∈ (mergeRemoveStep keep acc r).2.1,
        m ∈ acc.2.1 ∨ ∃ m0 ∈ msgsOf acc.2.1 r, ∃ o, m = movedRow keep o m0)
    ∧ maxOrder (mergeRemoveStep keep acc r).2.1 keep ≤ (mergeRemoveStep keep acc r).2.2.1
    ∧ (∀ m ∈ (mergeRemoveStep keep acc r).2.1, ∀ n, (mergeRemoveStep keep acc r).2.2.1 < n →
        m.message_id ≠ mkId keep n)
    ∧ acc.2.2.1 ≤ (mergeRemoveStep keep acc r).2.2.1 := by
  obtain ⟨tail, h1, h2, h3, h4, h5, h6⟩ := mergeMsgLoop_spec keep
    (sortBy (fun a b => a.message_order ≤ b.message_order) (msgsOf acc.2.1 r))
    acc.2.1 acc.2.2.1 acc.2.2.2 hmax hstale
  have htail : ∀ t ∈ tail, t.session_id = keep := by
    intro t ht
    obtain ⟨m2, _, o, ho⟩ := h5 t ht
    rw [ho]
    rfl
  have hmsgs : (mergeRemoveStep keep acc r).2.1
      = ((acc.2.1 ++ tail).filter (fun m => !(m.session_id == r))) := by
    show ((mergeMsgLoop keep _ acc.2.1 acc.2.2.1 acc.2.2.2).1.filter _) = _
    rw [h1]
  have hmx : (mergeRemoveStep keep acc r).2.2.1
      = (mergeMsgLoop keep (sortBy (fun a b => a.message_order ≤ b.message_order)
          (msgsOf acc.2.1 r)) acc.2.1 acc.2.2.1 acc.2.2.2).2.1 := rfl
  have hkeepOf : msgsOf (mergeRemoveStep keep acc r).2.1 keep
      = msgsOf (acc.2.1 ++ tail) keep := by
    rw [hmsgs]
    exact msgsOf_filter_other hkr
  refine ⟨?_, ?_, ?_, ?_, ?_, ?_, ?_⟩
  · intro sid hsk hsr
    rw [hmsgs, msgsOf_filter_other hsr]
    exact msgsOf_keeprows htail hsk
  · rw [hmsgs]
    exact msgsOf_filter_self _ r
  · intro k
    rw [keysOfSession_congr hkeepOf, h6 k]
    constructor
    · rintro (h | ⟨m2, hm2, hk⟩)
      · exact Or.inl h
      · refine Or.inr ?_
        rw [← hk]
        exact List.mem_map_of_mem _ (mem_sortBy.mp hm2)
    · rintro (h | h)
      · exact Or.inl h
      · obtain ⟨m2, hm2, hk⟩ := List.mem_map.mp h
        exact Or.inr ⟨m2, mem_sortBy.mpr hm2, hk⟩
  · intro m hm
    rw [hmsgs] at hm
    rcases List.mem_append.mp (List.mem_of_mem_filter hm) with h | h
    · exact Or.inl h
    · obtain ⟨m2, hm2, o, ho⟩ := h5 m h
      exact Or.inr ⟨m2, mem_sortBy.mp hm2, o, ho⟩
  · rw [maxOrder_congr hkeepOf, hmx]
    exact h3
  · intro m hm
    rw [hmsgs] at hm
    rw [hmx]
    exact h4 m (List.mem_append.mpr (List.mem_append.mp (List.mem_of_mem_filter hm)))
  · rw [hmx]
    exact h2

theorem mergeFold_msgs (keep : String) (removes : List String) :
    ∀ acc : List Session × List Message × Nat × MergeStats,
      removes.Nodup →
      keep ∉ removes →
      maxOrder acc.2.1 keep ≤ acc.2.2.1 →
      (∀ m ∈ acc.2.1, ∀ n, acc.2.2.1 < n → m.message_id ≠ mkId keep n) →
      (∀ sid, sid ≠ keep → sid ∉ removes →
          msgsOf (removes.foldl (mergeRemoveStep keep) acc).2.1 sid = msgsOf acc.2.1 sid)
      ∧ (∀ r ∈ removes, msgsOf (removes.foldl (mergeRemoveStep keep) acc).2.1 r = [])
      ∧ (∀ k : String × String,
          k ∈ keysOfSession (removes.foldl (mergeRemoveStep keep) acc).2.1 keep
            ↔ k ∈ keysOfSession acc.2.1 keep ∨ ∃ r ∈ removes, k ∈ keysOfSession acc.2.1 r)
      ∧ (∀ m ∈ (removes.foldl (mergeRemoveStep keep) acc).2.1,
          m ∈ acc.2.1 ∨ ∃ r ∈ removes, ∃ m0 ∈ msgsOf acc.2.1 r, ∃ o, m = movedRow keep o m0) := by
  induction removes with
  | nil =>
    intro acc _ _ _ _
    refine ⟨fun sid _ _ => rfl, fun r hr => absurd hr (List.not_mem_nil r), ?_, ?_⟩
    · intro k
      simp
    · intro m hm
      exact Or.inl hm
  | cons r rs ih =>
    intro acc hnd hkm hmax hstale
    have hkr : keep ≠ r := fun h => hkm (h ▸ List.mem_cons_self r rs)
    have hkrs : keep ∉ rs := fun h => hkm (List.mem_cons_of_mem r h)
    have hrrs : r ∉ rs := (List.nodup_cons.mp hnd).1
    obtain ⟨S1, S2, S3, S4, S5, S6, S7⟩ := mergeRemoveStep_spec keep r acc hmax hstale hkr
    obtain ⟨F1, F2, F3, F4⟩ := ih (mergeRemoveStep keep acc r) (List.nodup_cons.mp hnd).2
      hkrs S5 S6
    rw [List.foldl_cons]
    have hframe_rs : ∀ r2 ∈ rs, msgsOf (mergeRemoveStep keep acc r).2.1 r2
        = msgsOf acc.2.1 r2 := by
      intro r2 hr2
      have h1 : r2 ≠ keep := fun h => hkrs (h ▸ hr2)
      have h2 : r2 ≠ r := fun h => hrrs (h ▸ hr2)
      exact S1 r2 h1 h2
    refine ⟨?_, ?_, ?_, ?_⟩
    · intro sid hsk hsr
      rw [F1 sid hsk (fun h => hsr (List.mem_cons_of_mem r h)),
        S1 sid hsk (fun h => hsr (h ▸ List.mem_cons_self r rs))]
    · intro r2 hr2
      rcases List.mem_cons.mp hr2 with h | h
      · rw [h]
        have hrk : r ≠ keep := fun hh => hkr hh.symm
        rw [F1 r hrk hrrs]
        exact S2
      · exact F2 r2 h
    · intro k
      rw [F3 k, S3 k]
      constructor
      · rintro ((h | h) | ⟨r2, hr2, hk⟩)
        · exact Or.inl h
        · exact Or.inr ⟨r, List.mem_cons_self r rs, h⟩
        · rw [keysOfSession_congr (hframe_rs r2 hr2)] at hk
          exact Or.inr ⟨r2, List.mem_cons_of_mem r hr2, hk⟩
      · rintro (h | ⟨r2, hr2, hk⟩)
        · exact Or.inl (Or.inl h)
        · rcases List.mem_cons.mp hr2 with h1 | h1
          · rw [h1] at hk
            exact Or.inl (Or.inr hk)
          · refine Or.inr ⟨r2, h1, ?_⟩
            rw [keysOfSession_congr (hframe_rs r2 h1)]
            exact hk
    · intro m hm
      rcases F4 m hm with h | ⟨r2, hr2, m0, hm0, o, ho⟩
      · rcases S4 m h with h1 | ⟨m0, hm0, o, ho⟩
        · exact Or.inl h1
        · exact Or.inr ⟨r, List.mem_cons_self r rs, m0, hm0, o, ho⟩
      · rw [hframe_rs r2 hr2] at hm0
        exact Or.inr ⟨r2, List.mem_cons_of_mem r hr2, m0, hm0, o, ho⟩

/-! Unconditional shape facts about merge, used to carry frame and id
provenance across the groups a reconciliation pass processes before and
after a given one. -/

theorem mergeMsgLoop_weak (keep : String) (L : List Message) :
    ∀ (msgs : List Message) (mx : Nat) (st : MergeStats),
      ∃ tail, (mergeMsgLoop keep L msgs mx st).1 = msgs ++ tail
        ∧ ∀ t ∈ tail, t.session_id = keep ∧ ∃ o, t.message_id = mkId keep o := by
  induction L with
  | nil =>
    intro msgs mx st
    exact ⟨[], by simp [mergeMsgLoop], fun t ht => absurd ht (List.not_mem_nil t)⟩
  | cons m rest ih =>
    intro msgs mx st
    simp only [mergeMsgLoop]
    split
    · exact ih msgs mx _
    · split
      · exact ih msgs (mx + 1) st
      · obtain ⟨tail, h1, h2⟩ := ih (msgs ++ [movedRow keep (mx + 1) m]) (mx + 1)
          { st with messages_merged := st.messages_merged + 1 }
        have hsplit : msgs ++ movedRow keep (mx + 1) m :: tail
            = (msgs ++ [movedRow keep (mx + 1) m]) ++ tail := by
          rw [List.append_cons]
        refine ⟨movedRow keep (mx + 1) m :: tail, ?_, ?_⟩
        · rw [hsplit]
          exact h1
        · intro t ht
          rcases List.mem_cons.mp ht with h | h
          · rw [h]
            exact ⟨rfl, mx + 1, rfl⟩
          · exact h2 t h

theorem mergeFold_weak (keep : String) (removes : List String) :
    ∀ acc : List Session × List Message × Nat × MergeStats,
      (∀ sid, sid ≠ keep → sid ∉ removes →
          msgsOf (removes.foldl (mergeRemoveStep keep) acc).2.1 sid = msgsOf acc.2.1 sid)
      ∧ (∀ m ∈ (removes.foldl (mergeRemoveStep keep) acc).2.1,
          m ∈ acc.2.1 ∨ (m.session_id = keep ∧ ∃ o, m.message_id = mkId keep o)) := by
  induction removes with
  | nil =>
    intro acc
    exact ⟨fun sid _ _ => rfl, fun m hm => Or.inl hm⟩
  | cons r rs ih =>
    intro acc
    obtain ⟨tail, h1, h2⟩ := mergeMsgLoop_weak keep
      (sortBy (fun a b => a.message_order ≤ b.message_order) (msgsOf acc.2.1 r))
      acc.2.1 acc.2.2.1 acc.2.2.2
    have hmsgs : (mergeRemoveStep keep acc r).2.1
        = ((acc.2.1 ++ tail).filter (fun m => !(m.session_id == r))) := by
      show ((mergeMsgLoop keep _ acc.2.1 acc.2.2.1 acc.2.2.2).1.filter _) = _
      rw [h1]
    obtain ⟨F1, F2⟩ := ih (mergeRemoveStep keep acc r)
    rw [List.foldl_cons]
    refine ⟨?_, ?_⟩
    · intro sid hsk hsr
      rw [F1 sid hsk (fun h => hsr (List.mem_cons_of_mem r h)), hmsgs,
        msgsOf_filter_other (fun h => hsr (by rw [h]; exact List.mem_cons_self r rs)),
        msgsOf_keeprows (fun t ht => (h2 t ht).1) hsk]
    · intro m hm
      rcases F2 m hm with h | h
      · rw [hmsgs] at h
        rcases List.mem_append.mp (List.mem_of_mem_filter h) with h3 | h3
        · exact Or.inl h3
        · obtain ⟨ha, o, hb⟩ := h2 m h3
          exact Or.inr ⟨ha, o, hb⟩
      · exact Or.inr h

theorem merge_msgs_eq_fold (db : DB) (keep : String) (removes : List String) (now : Nat) :
    (merge_chat_sessions db keep removes now).1.messages
      = (removes.foldl (mergeRemoveStep keep)
          (db.sessions, db.messages, maxOrder db.messages keep,
           ({ total_messages_before := countMsgs db.messages keep } : MergeStats))).2.1 := rfl

theorem merge_msgs_frame (db : DB) (keep : String) (removes : List String) (now : Nat)
    (sid : String) (h1 : sid ≠ keep) (h2 : sid ∉ removes) :
    msgsOf (merge_chat_sessions db keep removes now).1.messages sid
      = msgsOf db.messages sid := by
  rw [merge_msgs_eq_fold]
  exact (mergeFold_weak keep removes _).1 sid h1 h2

theorem merge_msgs_weak (db : DB) (keep : String) (removes : List String) (now : Nat) :
    ∀ m ∈ (merge_chat_sessions db keep removes now).1.messages,
      m ∈ db.messages ∨ (m.session_id = keep ∧ ∃ o, m.message_id = mkId keep o) := by
  rw [merge_msgs_eq_fold]
  exact (mergeFold_weak keep removes _).2

theorem merge_msgs_spec (db : DB) (keep : String) (removes : List String) (now : Nat)
    (hnd : removes.Nodup) (hkm : keep ∉ removes)
    (hstale : StaleIdFree db.messages keep (maxOrder db.messages keep)) :
    (∀ r ∈ removes, msgsOf (merge_chat_sessions db keep removes now).1.messages r = [])
    ∧ (∀ k : String × String,
        k ∈ keysOfSession (merge_chat_sessions db keep removes now).1.messages keep
          ↔ k ∈ keysOfSession db.messages keep
            ∨ ∃ r ∈ removes, k ∈ keysOfSession db.messages r)
    ∧ (∀ m ∈ (merge_chat_sessions db keep removes now).1.messages,
        m ∈ db.messages ∨ ∃ r ∈ removes, ∃ m0 ∈ msgsOf db.messages r, ∃ o,
          m = movedRow keep o m0) := by
  obtain ⟨F1, F2, F3, F4⟩ := mergeFold_msgs keep removes
    (db.sessions, db.messages, maxOrder db.messages keep,
     ({ total_messages_before := countMsgs db.messages keep } : MergeStats))
    hnd hkm (Nat.le_refl _) hstale
  rw [merge_msgs_eq_fold]
  exact ⟨F2, F3, F4⟩

theorem cleanupGroupStep_db (now : Nat) (acc : DB × CleanupStats) (g : DupGroup) :
    (cleanupGroupStep now acc g).1
      = (merge_chat_sessions acc.1 g.keep_session g.remove_sessions now).1 := rfl

theorem cleanupFold_frame (now : Nat) (G : List DupGroup) :
    ∀ (acc : DB × CleanupStats) (sid : String),
      (∀ g2 ∈ G, sid ≠ g2.keep_session ∧ sid ∉ g2.remove_sessions) →
      msgsOf (G.foldl (cleanupGroupStep now) acc).1.messages sid
        = msgsOf acc.1.messages sid := by
  induction G with
  | nil => intro acc sid _; rfl
  | cons g2 rest ih =>
    intro acc sid hcond
    rw [List.foldl_cons,
      ih (cleanupGroupStep now acc g2) sid
        (fun g3 h3 => hcond g3 (List.mem_cons_of_mem _ h3)),
      cleanupGroupStep_db]
    obtain ⟨h1, h2⟩ := hcond g2 (List.mem_cons_self _ _)
    exact merge_msgs_frame acc.1 g2.keep_session g2.remove_sessions now sid h1 h2

theorem cleanupFold_stale (now : Nat) (G : List DupGroup) (kid : String) (bound : Nat) :
    ∀ acc : DB × CleanupStats,
      (∀ g2 ∈ G, g2.keep_session ≠ kid) →
      (∀ m ∈ acc.1.messages, ∀ n, bound < n → m.message_id ≠ mkId kid n) →
      ∀ m ∈ (G.foldl (cleanupGroupStep now) acc).1.messages, ∀ n, bound < n →
        m.message_id ≠ mkId kid n := by
  induction G with
  | nil => intro acc _ h; exact h
  | cons g2 rest ih =>
    intro acc hk h
    rw [List.foldl_cons]
    refine ih (cleanupGroupStep now acc g2)
      (fun g3 h3 => hk g3 (List.mem_cons_of_mem _ h3)) ?_
    intro m hm n hn
    rw [cleanupGroupStep_db] at hm
    rcases merge_msgs_weak acc.1 g2.keep_session g2.remove_sessions now m hm with h1 | ⟨_, o, ho⟩
    · exact h m h1 n hn
    · rw [ho]
      intro hcontra
      exact hk g2 (List.mem_cons_self _ _) (mkId_inj hcontra).1

theorem allRemoves_mem_inv {G : List DupGroup} {x : String} (hx : x ∈ allRemoves G) :
    ∃ g ∈ G, x ∈ g.remove_sessions := by
  induction G with
  | nil => cases hx
  | cons g2 rest ih =>
    rcases List.mem_append.mp hx with h | h
    · exact ⟨g2, List.mem_cons_self _ _, h⟩
    · obtain ⟨g3, h3, h4⟩ := ih h
      exact ⟨g3, List.mem_cons_of_mem _ h3, h4⟩

theorem contains_iff_mem_fp {l : List (Option String × Option String × Option String)}
    {x : Option String × Option String × Option String} :
    l.contains x = true ↔ x ∈ l := by
  induction l with
  | nil => simp
  | cons a t ih => simp [List.contains_cons, ih, or_comm]

theorem fingerprints_nodup (db : DB) : (fingerprints db).Nodup := by
  have hgen : ∀ (l : List Session)
      (acc : List (Option String × Option String × Option String)),
      acc.Nodup →
      (l.foldl (fun acc s => if acc.contains (fpOf s) then acc else acc ++ [fpOf s]) acc).Nodup := by
    intro l
    induction l with
    | nil => intro acc h; exact h
    | cons a t ih =>
      intro acc h
      rw [List.foldl_cons]
      by_cases hc : acc.contains (fpOf a) = true
      · rw [if_pos hc]
        exact ih acc h
      · rw [if_neg hc]
        refine ih (acc ++ [fpOf a]) ?_
        rw [List.nodup_append]
        refine ⟨h, List.nodup_singleton _, ?_⟩
        intro y hy hy2
        rcases List.mem_cons.mp hy2 with h1 | h1
        · rw [h1] at hy
          exact hc (contains_iff_mem_fp.mpr hy)
        · cases h1
  exact hgen _ [] List.nodup_nil

theorem fingerprint_some (db : DB)
    {f : Option String × Option String × Option String} (hf : f ∈ fingerprints db) :
    f.1 = some (f.1.getD "") ∧ f.2.2 = some (f.2.2.getD "") := by
  obtain ⟨s, _, he, hfp⟩ := fingerprints_sound db f hf
  have h1 : s.chat_platform.isSome = true ∧ s.participant_name.isSome = true := by
    simpa [eligible, Bool.and_eq_true] using he
  constructor
  · rw [← hfp]
    show s.chat_platform = some (s.chat_platform.getD "")
    rcases hp : s.chat_platform with _ | p
    · rw [hp] at h1; cases h1.1
    · rfl
  · rw [← hfp]
    show s.participant_name = some (s.participant_name.getD "")
    rcases hp : s.participant_name with _ | p
    · rw [hp] at h1; cases h1.2
    · rfl

theorem find_dup_nodup (db : DB) : (find_duplicate_chat_sessions db).Nodup := by
  unfold find_duplicate_chat_sessions
  apply (sortBy_perm countGe _).nodup_iff.mpr
  apply List.Nodup.filter
  apply List.Nodup.map_on ?_ (fingerprints_nodup db)
  intro f hf f2 hf2 heq
  obtain ⟨ha1, ha2⟩ := fingerprint_some db hf
  obtain ⟨hb1, hb2⟩ := fingerprint_some db hf2
  have hplat : f.1.getD "" = f2.1.getD "" := congrArg DupGroup.platform heq
  have htitle : f.2.1 = f2.2.1 := congrArg DupGroup.title heq
  have hpart : f.2.2.getD "" = f2.2.2.getD "" := congrArg DupGroup.participant heq
  have h1 : f.1 = f2.1 := by rw [ha1, hb1, hplat]
  have h2 : f.2.2 = f2.2.2 := by rw [ha2, hb2, hpart]
  exact Prod.ext h1 (Prod.ext htitle h2)

theorem groupRows_mem_facts (db : DB) (f : Option String × Option String × Option String) :
    ∀ s ∈ groupRows db f, s ∈ db.sessions ∧ eligible s = true ∧ fpOf s = f := by
  intro s hs
  have hmem := (groupRows_eq_filter db f).mem_iff.mp hs
  obtain ⟨h1, h2⟩ := List.mem_filter.mp hmem
  rw [Bool.and_eq_true, beq_iff_eq] at h2
  exact ⟨h1, h2.1, h2.2⟩

theorem group_cons (db : DB) {g : DupGroup} (hg : g ∈ find_duplicate_chat_sessions db) :
    g.session_ids = g.keep_session :: g.remove_sessions := by
  obtain ⟨f, _, hgf, hlen⟩ := find_dup_mem_group db hg
  rcases hrows : groupRows db f with _ | ⟨r0, rtail⟩
  · rw [hrows] at hlen; simp at hlen
  · rw [hgf, hrows]
    rfl

theorem group_ids_sub (db : DB) {g : DupGroup} (hg : g ∈ find_duplicate_chat_sessions db) :
    ∀ x ∈ g.session_ids, ∃ s ∈ db.sessions, s.session_id = x
      ∧ eligible s = true := by
  obtain ⟨f, _, hgf, _⟩ := find_dup_mem_group db hg
  intro x hx
  rw [hgf] at hx
  obtain ⟨s, hs, hsid⟩ := List.mem_map.mp hx
  obtain ⟨h1, h2, _⟩ := groupRows_mem_facts db f s hs
  exact ⟨s, h1, hsid, h2⟩

theorem group_ids_nodup (db : DB) {g : DupGroup}
    (hg : g ∈ find_duplicate_chat_sessions db)
    (hnodup : (db.sessions.map (fun s => s.session_id)).Nodup) :
    g.session_ids.Nodup := by
  obtain ⟨f, _, hgf, _⟩ := find_dup_mem_group db hg
  rw [hgf]
  show ((groupRows db f).map (fun s => s.session_id)).Nodup
  have h1 : ((db.sessions.filter (fun s => eligible s && fpOf s == f)).map
      (fun s => s.session_id)).Nodup :=
    hnodup.sublist ((List.filter_sublist _).map _)
  exact (((groupRows_eq_filter db f).map (fun s => s.session_id)).nodup_iff).mpr h1

theorem group_ids_disjoint (db : DB)
    (hnodup : (db.sessions.map (fun s => s.session_id)).Nodup)
    {g g2 : DupGroup} (hg : g ∈ find_duplicate_chat_sessions db)
    (hg2 : g2 ∈ find_duplicate_chat_sessions db) (hne : g ≠ g2) :
    ∀ x ∈ g.session_ids, x ∉ g2.session_ids := by
  obtain ⟨f, _, hgf, _⟩ := find_dup_mem_group db hg
  obtain ⟨f2, _, hgf2, _⟩ := find_dup_mem_group db hg2
  intro x hx hx2
  rw [hgf] at hx
  rw [hgf2] at hx2
  obtain ⟨s, hs, hsid⟩ := List.mem_map.mp hx
  obtain ⟨s2, hs2, hsid2⟩ := List.mem_map.mp hx2
  obtain ⟨ha1, _, ha3⟩ := groupRows_mem_facts db f s hs
  obtain ⟨hb1, _, hb3⟩ := groupRows_mem_facts db f2 s2 hs2
  have hss : s = s2 :=
    nodup_key_inj hnodup s ha1 s2 hb1 (hsid.trans hsid2.symm)
  apply hne
  rw [hgf, hgf2]
  rw [← ha3, hss, hb3]

theorem mkId_has_underscore (s : String) (n : Nat) : '_' ∈ (mkId s n).data := by
  show '_' ∈ (s ++ "_" ++ Nat.repr n).data
  rw [String.data_append, String.data_append]
  exact List.mem_append_left _ (List.mem_append_right _ (List.mem_cons_self _ _))

theorem staleIdFree_of_no_underscore {msgs : List Message}
    (h : ∀ m ∈ msgs, ¬ '_' ∈ m.message_id.data) (sid : String) (bound : Nat) :
    StaleIdFree msgs sid bound := by
  intro m hm n _ heq
  apply h m hm
  rw [heq]
  exact mkId_has_underscore sid n

theorem group_other_cond (db : DB)
    (hnodup : (db.sessions.map (fun s => s.session_id)).Nodup)
    {g g2 : DupGroup} (hg : g ∈ find_duplicate_chat_sessions db)
    (hg2 : g2 ∈ find_duplicate_chat_sessions db) (hne : g ≠ g2) :
    ∀ sid ∈ g.session_ids, sid ≠ g2.keep_session ∧ sid ∉ g2.remove_sessions := by
  intro sid hsid
  have hdisj := group_ids_disjoint db hnodup hg hg2 hne sid hsid
  have hcons2 := group_cons db hg2
  constructor
  · intro h
    apply hdisj
    rw [h, hcons2]
    exact List.mem_cons_self _ _
  · intro h
    apply hdisj
    rw [hcons2]
    exact List.mem_cons_of_mem _ h

theorem keep_not_in_allRemoves (db : DB)
    (hnodup : (db.sessions.map (fun s => s.session_id)).Nodup)
    {g : DupGroup} (hg : g ∈ find_duplicate_chat_sessions db) :
    g.keep_session ∉ allRemoves (find_duplicate_chat_sessions db) := by
  intro h
  obtain ⟨g2, hg2, hmem⟩ := allRemoves_mem_inv h
  by_cases hne : g = g2
  · rw [← hne] at hmem
    have hidnd := group_ids_nodup db hg hnodup
    rw [group_cons db hg] at hidnd
    exact (List.nodup_cons.mp hidnd).1 hmem
  · apply group_ids_disjoint db hnodup hg hg2 hne g.keep_session
      (by rw [group_cons db hg]; exact List.mem_cons_self _ _)
    rw [group_cons db hg2]
    exact List.mem_cons_of_mem _ hmem

theorem cleanup_group_survivor (db : DB) (now : Nat) {g : DupGroup}
    (hg : g ∈ find_duplicate_chat_sessions db)
    (hnodup : (db.sessions.map (fun s => s.session_id)).Nodup) :
    ((cleanup_duplicate_chat_sessions db now).1.sessions.filter
        (fun s => g.session_ids.contains s.session_id)).map (fun s => s.session_id)
      = [g.keep_session]
    ∧ ∀ s ∈ (cleanup_duplicate_chat_sessions db now).1.sessions,
        s.session_id ∉ allRemoves (find_duplicate_chat_sessions db) := by
  have hemp : ¬ ((find_duplicate_chat_sessions db).isEmpty = true) := by
    rcases hfd : find_duplicate_chat_sessions db with _ | ⟨a, t⟩
    · rw [hfd] at hg; cases hg
    · simp
  have hfold : (cleanup_duplicate_chat_sessions db now).1
      = ((find_duplicate_chat_sessions db).foldl (cleanupGroupStep now)
          (db, ({ duplicate_groups_found := (find_duplicate_chat_sessions db).length,
                  success := true } : CleanupStats))).1 := by
    unfold cleanup_duplicate_chat_sessions
    rw [if_neg hemp]
  obtain ⟨F, hFp, hsess⟩ := cleanupFold_sessions now (find_duplicate_chat_sessions db) db
    { duplicate_groups_found := (find_duplicate_chat_sessions db).length, success := true }
  have hsess2 : (cleanup_duplicate_chat_sessions db now).1.sessions
      = (db.sessions.filter (fun s =>
          !((allRemoves (find_duplicate_chat_sessions db)).contains s.session_id))).map F := by
    rw [hfold]
    exact hsess
  constructor
  · rw [hsess2,
      filter_map_comm _ F _ (fun s => by rw [(hFp s).1]),
      List.map_map]
    have hmapids : ∀ l : List Session, l.map (fun s => (F s).session_id)
        = l.map (fun s => s.session_id) := by
      intro l
      apply List.map_congr_left
      intro s _
      exact (hFp s).1
    rw [show ((fun s => s.session_id) ∘ F) = (fun s => (F s).session_id) from rfl, hmapids]
    rw [filter_comm_sessions, List.filter_filter]
    have hpred : (db.sessions.filter (fun s =>
        !((allRemoves (find_duplicate_chat_sessions db)).contains s.session_id)
          && g.session_ids.contains s.session_id))
        = db.sessions.filter (fun s => s.session_id == g.keep_session) := by
      apply List.filter_congr
      intro s _
      by_cases hk : s.session_id = g.keep_session
      · have h1 : g.session_ids.contains s.session_id = true := by
          apply contains_iff_mem.mpr
          rw [hk, group_cons db hg]
          exact List.mem_cons_self _ _
        have h2 : (allRemoves (find_duplicate_chat_sessions db)).contains s.session_id
            = false := by
          apply Bool.eq_false_iff.mpr
          intro hc
          rw [hk] at hc
          exact keep_not_in_allRemoves db hnodup hg (contains_iff_mem.mp hc)
        rw [h1, h2]
        simp [hk]
      · by_cases hin : s.session_id ∈ g.session_ids
        · have h1 : s.session_id ∈ g.remove_sessions := by
            rw [group_cons db hg] at hin
            rcases List.mem_cons.mp hin with h | h
            · exact absurd h hk
            · exact h
          have h2 : (allRemoves (find_duplicate_chat_sessions db)).contains s.session_id
              = true := contains_iff_mem.mpr (mem_allRemoves hg h1)
          rw [h2]
          simp [hk]
        · have h1 : g.session_ids.contains s.session_id = false :=
            Bool.eq_false_iff.mpr (fun hc => hin (contains_iff_mem.mp hc))
          rw [h1]
          simp [hk]
    rw [hpred]
    obtain ⟨s0, hs0, hs0id, _⟩ := group_ids_sub db hg g.keep_session
      (by rw [group_cons db hg]; exact List.mem_cons_self _ _)
    have hs0f : s0 ∈ db.sessions.filter (fun s => s.session_id == g.keep_session) :=
      List.mem_filter.mpr ⟨hs0, by simp [hs0id]⟩
    have hconst : ∀ s ∈ db.sessions.filter (fun s => s.session_id == g.keep_session),
        s.session_id = g.keep_session := by
      intro s hs
      exact beq_iff_eq.mp (List.mem_filter.mp hs).2
    have hlen1 : (db.sessions.filter (fun s => s.session_id == g.keep_session)).length ≤ 1 :=
      length_le_one_of_const (hnodup.sublist ((List.filter_sublist _).map _)) hconst
    have hlen2 : 0 < (db.sessions.filter (fun s => s.session_id == g.keep_session)).length :=
      List.length_pos.mpr (List.ne_nil_of_mem hs0f)
    obtain ⟨a, ha⟩ := List.length_eq_one.mp (Nat.le_antisymm hlen1 hlen2)
    rw [ha]
    have haid : a.session_id = g.keep_session := by
      apply hconst
      rw [ha]
      exact List.mem_cons_self _ _
    rw [List.map_cons, List.map_nil, haid]
  · intro s hs
    rw [hsess2] at hs
    obtain ⟨s0, hs0, hs0eq⟩ := List.mem_map.mp hs
    have h1 := (List.mem_filter.mp hs0).2
    rw [← hs0eq, (hFp s0).1]
    intro hc
    rw [contains_iff_mem.mpr hc] at h1
    cases h1

/-- C3 (confirmed for every group the reconciler finds, on a store whose
session ids are unique — the PRIMARY KEY constraint — and free of stale ids
colliding with the keep session's generated ids — the UNIQUE message_id
invariant): one reconciliation pass leaves exactly one surviving session of
the group, its keep session, which is a group member no other member beats
on message count (ties broken by last activity); the keep session's
(sender, text) dedup-key set afterwards is exactly the union of the group
members' key sets before; every surviving keep-session message row is
either one of the keep session's original rows or a moved copy of a removed
member's row that keeps its sender, text and original conversational
timestamp; and the removed members' session rows and message rows are all
gone. -/
theorem c3_reconcile_convergence (db : DB) (now : Nat) (g : DupGroup)
    (hg : g ∈ find_duplicate_chat_sessions db)
    (hnodup : (db.sessions.map (fun s => s.session_id)).Nodup)
    (hstale : StaleIdFree db.messages g.keep_session (maxOrder db.messages g.keep_session)) :
    g.session_ids = g.keep_session :: g.remove_sessions
    ∧ ((cleanup_duplicate_chat_sessions db now).1.sessions.filter
        (fun s => g.session_ids.contains s.session_id)).map (fun s => s.session_id)
        = [g.keep_session]
    ∧ (∃ sk ∈ db.sessions, sk.session_id = g.keep_session ∧
        ∀ t ∈ db.sessions, t.session_id ∈ g.session_ids → keyGe sk t = true)
    ∧ (∀ k : String × String,
        k ∈ keysOfSession (cleanup_duplicate_chat_sessions db now).1.messages g.keep_session
          ↔ ∃ i ∈ g.session_ids, k ∈ keysOfSession db.messages i)
    ∧ (∀ m ∈ msgsOf (cleanup_duplicate_chat_sessions db now).1.messages g.keep_session,
        m ∈ msgsOf db.messages g.keep_session
          ∨ ∃ r ∈ g.remove_sessions, ∃ m0 ∈ msgsOf db.messages r, ∃ o,
              m = movedRow g.keep_session o m0 ∧ m.timestamp = m0.timestamp
                ∧ m.sender = m0.sender ∧ m.message_text = m0.message_text)
    ∧ (∀ r ∈ g.remove_sessions,
        msgsOf (cleanup_duplicate_chat_sessions db now).1.messages r = []
          ∧ ∀ s ∈ (cleanup_duplicate_chat_sessions db now).1.sessions, s.session_id ≠ r) := by
  obtain ⟨f, hf, hgf, hlen⟩ := find_dup_mem_group db hg
  have hcons : g.session_ids = g.keep_session :: g.remove_sessions := group_cons db hg
  have hidnd : g.session_ids.Nodup := group_ids_nodup db hg hnodup
  have hkeepmem : g.keep_session ∈ g.session_ids := by
    rw [hcons]; exact List.mem_cons_self _ _
  have hremsub : ∀ r ∈ g.remove_sessions, r ∈ g.session_ids := by
    intro r hr; rw [hcons]; exact List.mem_cons_of_mem _ hr
  have hkeepnr : g.keep_session ∉ g.remove_sessions := by
    rw [hcons] at hidnd
    exact (List.nodup_cons.mp hidnd).1
  have hremnd : g.remove_sessions.Nodup := by
    rw [hcons] at hidnd
    exact (List.nodup_cons.mp hidnd).2
  obtain ⟨G1, G2, hsplit⟩ := List.append_of_mem hg
  have hGnd := find_dup_nodup db
  rw [hsplit, List.nodup_append] at hGnd
  obtain ⟨hGnd1, hGnd2, hGnd3⟩ := hGnd
  have hgnotG1 : g ∉ G1 := fun h => hGnd3 h (List.mem_cons_self _ _)
  have hgnotG2 : g ∉ G2 := (List.nodup_cons.mp hGnd2).1
  have hmemG1 : ∀ g2 ∈ G1, g2 ∈ find_duplicate_chat_sessions db ∧ g ≠ g2 := by
    intro g2 h2
    refine ⟨by rw [hsplit]; exact List.mem_append_left _ h2, ?_⟩
    intro h
    rw [← h] at h2
    exact hgnotG1 h2
  have hmemG2 : ∀ g2 ∈ G2, g2 ∈ find_duplicate_chat_sessions db ∧ g ≠ g2 := by
    intro g2 h2
    refine ⟨by rw [hsplit]; exact List.mem_append_right _ (List.mem_cons_of_mem _ h2), ?_⟩
    intro h
    rw [← h] at h2
    exact hgnotG2 h2
  have hemp : ¬ ((find_duplicate_chat_sessions db).isEmpty = true) := by
    rcases hfd : find_duplicate_chat_sessions db with _ | ⟨a, t⟩
    · rw [hfd] at hg; cases hg
    · simp
  have hfoldmsg : (cleanup_duplicate_chat_sessions db now).1.messages
      = (G2.foldl (cleanupGroupStep now)
          (cleanupGroupStep now
            (G1.foldl (cleanupGroupStep now)
              (db, ({ duplicate_groups_found := (find_duplicate_chat_sessions db).length,
                      success := true } : CleanupStats))) g)).1.messages := by
    have h1 : (cleanup_duplicate_chat_sessions db now).1
        = ((find_duplicate_chat_sessions db).foldl (cleanupGroupStep now)
            (db, ({ duplicate_groups_found := (find_duplicate_chat_sessions db).length,
                    success := true } : CleanupStats))).1 := by
      unfold cleanup_duplicate_chat_sessions
      rw [if_neg hemp]
    rw [h1]
    conv_lhs => rw [hsplit]
    rw [List.foldl_append, List.foldl_cons, hsplit]
  have hframe1 : ∀ sid ∈ g.session_ids,
      msgsOf (G1.foldl (cleanupGroupStep now)
        (db, ({ duplicate_groups_found := (find_duplicate_chat_sessions db).length,
                success := true } : CleanupStats))).1.messages sid
      = msgsOf db.messages sid := by
    intro sid hs
    apply cleanupFold_frame
    intro g2 h2
    exact group_other_cond db hnodup hg (hmemG1 g2 h2).1 (hmemG1 g2 h2).2 sid hs
  have hstale1 : ∀ m ∈ (G1.foldl (cleanupGroupStep now)
      (db, ({ duplicate_groups_found := (find_duplicate_chat_sessions db).length,
              success := true } : CleanupStats))).1.messages, ∀ n,
      maxOrder db.messages g.keep_session < n → m.message_id ≠ mkId g.keep_session n := by
    apply cleanupFold_stale
    · intro g2 h2
      intro h
      apply group_other_cond db hnodup hg (hmemG1 g2 h2).1 (hmemG1 g2 h2).2
        g.keep_session hkeepmem |>.1
      rw [h]
    · exact hstale
  have hmax1 : maxOrder (G1.foldl (cleanupGroupStep now)
      (db, ({ duplicate_groups_found := (find_duplicate_chat_sessions db).length,
              success := true } : CleanupStats))).1.messages g.keep_session
      = maxOrder db.messages g.keep_session :=
    maxOrder_congr (hframe1 _ hkeepmem)
  have hstale1b : StaleIdFree (G1.foldl (cleanupGroupStep now)
      (db, ({ duplicate_groups_found := (find_duplicate_chat_sessions db).length,
              success := true } : CleanupStats))).1.messages g.keep_session
      (maxOrder (G1.foldl (cleanupGroupStep now)
        (db, ({ duplicate_groups_found := (find_duplicate_chat_sessions db).length,
                success := true } : CleanupStats))).1.messages g.keep_session) := by
    unfold StaleIdFree
    rw [hmax1]
    exact hstale1
  obtain ⟨M1, M2, M3⟩ := merge_msgs_spec (G1.foldl (cleanupGroupStep now)
      (db, ({ duplicate_groups_found := (find_duplicate_chat_sessions db).length,
              success := true } : CleanupStats))).1
    g.keep_session g.remove_sessions now hremnd hkeepnr hstale1b
  have hframe2 : ∀ sid ∈ g.session_ids,
      msgsOf (G2.foldl (cleanupGroupStep now)
        (cleanupGroupStep now
          (G1.foldl (cleanupGroupStep now)
            (db, ({ duplicate_groups_found := (find_duplicate_chat_sessions db).length,
                    success := true } : CleanupStats))) g)).1.messages sid
      = msgsOf (cleanupGroupStep now
          (G1.foldl (cleanupGroupStep now)
            (db, ({ duplicate_groups_found := (find_duplicate_chat_sessions db).length,
                    success := true } : CleanupStats))) g).1.messages sid := by
    intro sid hs
    apply cleanupFold_frame
    intro g2 h2
    exact group_other_cond db hnodup hg (hmemG2 g2 h2).1 (hmemG2 g2 h2).2 sid hs
  refine ⟨hcons, (cleanup_group_survivor db now hg hnodup).1, ?_, ?_, ?_, ?_⟩
  · rcases hrows : groupRows db f with _ | ⟨r0, rtail⟩
    · rw [hrows] at hlen; simp at hlen
    · have hkeep : g.keep_session = r0.session_id := by
        rw [hgf, hrows]; rfl
      have hr0g : r0 ∈ groupRows db f := by
        rw [hrows]; exact List.mem_cons_self _ _
      obtain ⟨hr0db, _, _⟩ := groupRows_mem_facts db f r0 hr0g
      refine ⟨r0, hr0db, hkeep.symm, ?_⟩
      intro t ht hts
      rw [hgf] at hts
      obtain ⟨s, hs, hsid⟩ := List.mem_map.mp hts
      obtain ⟨hsdb, _, _⟩ := groupRows_mem_facts db f s hs
      have hts2 : t = s := nodup_key_inj hnodup t ht s hsdb hsid.symm
      have hsl : s ∈ sortBy keyGe
          ((db.sessions.filter eligible).filter (fun s2 => fpOf s2 == f)) := hs
      have hrows2 : sortBy keyGe
          ((db.sessions.filter eligible).filter (fun s2 => fpOf s2 == f))
          = r0 :: rtail := hrows
      rw [hts2]
      exact sortBy_head_dominates keyGe_total keyGe_trans hrows2 s (mem_sortBy.mp hsl)
  · intro k
    rw [hfoldmsg, keysOfSession_congr (hframe2 g.keep_session hkeepmem),
      cleanupGroupStep_db, M2 k,
      keysOfSession_congr (hframe1 g.keep_session hkeepmem)]
    constructor
    · rintro (h | ⟨r, hr, hk⟩)
      · exact ⟨g.keep_session, hkeepmem, h⟩
      · rw [keysOfSession_congr (hframe1 r (hremsub r hr))] at hk
        exact ⟨r, hremsub r hr, hk⟩
    · rintro ⟨i, hi, hk⟩
      rw [hcons] at hi
      rcases List.mem_cons.mp hi with h | h
      · rw [h] at hk
        exact Or.inl hk
      · refine Or.inr ⟨i, h, ?_⟩
        rw [keysOfSession_congr (hframe1 i (hremsub i h))]
        exact hk
  · intro m hm
    rw [hfoldmsg, hframe2 g.keep_session hkeepmem, cleanupGroupStep_db] at hm
    have hsid : m.session_id = g.keep_session :=
      beq_iff_eq.mp (List.mem_filter.mp hm).2
    rcases M3 m (List.mem_of_mem_filter hm) with h | ⟨r, hr, m0, hm0, o, heq⟩
    · refine Or.inl ?_
      rw [← hframe1 g.keep_session hkeepmem]
      exact List.mem_filter.mpr ⟨h, by simp [hsid]⟩
    · rw [hframe1 r (hremsub r hr)] at hm0
      refine Or.inr ⟨r, hr, m0, hm0, o, heq, ?_, ?_, ?_⟩ <;> rw [heq] <;> rfl
  · intro r hr
    constructor
    · rw [hfoldmsg, hframe2 r (hremsub r hr), cleanupGroupStep_db]
      exact M1 r hr
    · intro s hs
      intro hcontra
      apply (cleanup_group_survivor db now hg hnodup).2 s hs
      rw [hcontra]
      exact mem_allRemoves hg hr

/-- A plain stored message row used by the reconciliation witness; its id
carries no underscore, as witnesses to id-collision freedom. -/
def c3msg (sid mid sender text ts : String) (o : Nat) : Message :=
  { session_id := sid, message_id := mid, sender := sender, sender_type := "incoming",
    message_text := text, timestamp := ts, message_order := o, scraped_at := 0 }

/-- A store holding two duplicate sessions of one conversation: session a
with two messages, session b with two messages, one of which repeats a
dedup key of session a. -/
def c3db : DB :=
  ⟨[plainSession "a" 2 5, plainSession "b" 1 3],
   [c3msg "a" "x1" "Alice" "hi" "10:00" 1, c3msg "a" "x2" "Bob" "yo" "10:01" 2,
    c3msg "b" "x3" "Alice" "hi" "09:00" 1, c3msg "b" "x4" "Cara" "new" "09:05" 2]⟩

/-- The duplicate group the finder reports for that store. -/
def c3g : DupGroup :=
  { platform := "upwork", title := some "T", participant := "P", duplicate_count := 2,
    session_ids := ["a", "b"], message_counts := [2, 1], keep_session := "a",
    remove_sessions := ["b"] }

/-- C3 witness: on the two-duplicate store, the group is found, the store's
session ids are unique, its message ids collide with no generated id, and
one reconciliation pass produces the claimed survivor, key union,
provenance and deletions. -/
theorem c3_reconcile_convergence_witness :
    c3g ∈ find_duplicate_chat_sessions c3db
    ∧ (c3db.sessions.map (fun s => s.session_id)).Nodup
    ∧ (c3g.session_ids = c3g.keep_session :: c3g.remove_sessions
      ∧ ((cleanup_duplicate_chat_sessions c3db 9).1.sessions.filter
          (fun s => c3g.session_ids.contains s.session_id)).map (fun s => s.session_id)
          = [c3g.keep_session]
      ∧ (∃ sk ∈ c3db.sessions, sk.session_id = c3g.keep_session ∧
          ∀ t ∈ c3db.sessions, t.session_id ∈ c3g.session_ids → keyGe sk t = true)
      ∧ (∀ k : String × String,
          k ∈ keysOfSession (cleanup_duplicate_chat_sessions c3db 9).1.messages
              c3g.keep_session
            ↔ ∃ i ∈ c3g.session_ids, k ∈ keysOfSession c3db.messages i)
      ∧ (∀ m ∈ msgsOf (cleanup_duplicate_chat_sessions c3db 9).1.messages c3g.keep_session,
          m ∈ msgsOf c3db.messages c3g.keep_session
            ∨ ∃ r ∈ c3g.remove_sessions, ∃ m0 ∈ msgsOf c3db.messages r, ∃ o,
                m = movedRow c3g.keep_session o m0 ∧ m.timestamp = m0.timestamp
                  ∧ m.sender = m0.sender ∧ m.message_text = m0.message_text)
      ∧ (∀ r ∈ c3g.remove_sessions,
          msgsOf (cleanup_duplicate_chat_sessions c3db 9).1.messages r = []
            ∧ ∀ s ∈ (cleanup_duplicate_chat_sessions c3db 9).1.sessions,
                s.session_id ≠ r)) :=
  ⟨by decide, by decide,
   c3_reconcile_convergence c3db 9 c3g (by decide) (by decide)
     (staleIdFree_of_no_underscore (by decide) c3g.keep_session
       (maxOrder c3db.messages c3g.keep_session))⟩

end Scrape
